import Mathlib

/-!
Verification development for the TextFileSynth core pipeline:
the lexer (`tfs_script.py`, class `Scanner`), the parser/interpreter
(`tfs_script.py`, class `Parser`), the rendering environment
(`tfs_env.py`, class `TFSEnvironment`) and the waveform generator
(`signal_generator.py`, classes `SignalGenerator` / `PulseGenerator`).

The Python source is embedded shallowly:
* strings are `List Char`;
* Python `int` is `ℤ` (or `ℕ` where the source value is a digit-run parse);
* Python `float` arithmetic is modelled exactly: the beat/tempo arithmetic
  of `__get_num_samples` only ever sees rationals, so it is embedded over
  `ℚ`; the pitch/phase arithmetic of the generator is genuinely real-valued
  (`2 ** ((n - 69)/12)`), so it is embedded over `ℝ`;
* fallible code returns an explicit outcome; an uncaught Python exception
  (`IndexError`, `TypeError`, ...) is modelled by a distinguished `crash`
  outcome.
-/

namespace TFS

/-- Token discriminants, one per `TokenType` constant of `tfs_script.py`
(NOTE_LETTER, REST, NUMBER, LENGTH_EXT, SHARP, FLAT, OCT_UP, OCT_DN,
BPM_CHANGE). -/
inductive TokType where
  | noteLetter
  | rest
  | number
  | lengthExt
  | sharp
  | flat
  | octUp
  | octDn
  | bpmChange
deriving DecidableEq, Repr

/-- Display names, from the `TokenType(...)` constructor calls. -/
def TokType.dispName : TokType → String
  | .noteLetter => "Note Letter"
  | .rest => "Rest"
  | .number => "Number"
  | .lengthExt => "Length Extension"
  | .sharp => "Sharp"
  | .flat => "Flat"
  | .octUp => "Octave Up"
  | .octDn => "Octave Down"
  | .bpmChange => "BPM Change"

/-- The dynamically typed `Token.value` payload: `None`, a letter
(for NOTE_LETTER), or an int (for NUMBER / LENGTH_EXT). -/
inductive TokVal where
  | none
  | ch (c : Char)
  | num (n : Nat)
deriving DecidableEq, Repr

/-- A `Token` of `tfs_script.py`: script position (`ScriptIndex`, 1-based
line and column), the verbatim source substring `raw_script`, the
discriminant and the payload. -/
structure SToken where
  line : Nat
  col : Nat
  raw : List Char
  ttype : TokType
  value : TokVal
deriving DecidableEq, Repr

/-- Outcome of a `Scanner` run: success, failure at an unrecognized
character (the character together with the 1-based line/column that
`Scanner.__scan_next_token` embeds in `error_msg`), or an uncaught
exception (`IndexError` from `Scanner.__peek` past the end of input). -/
inductive ScanOutcome where
  | ok
  | fail (c : Char) (line : Nat) (col : Nat)
  | crash
deriving DecidableEq, Repr

/-- The observable state of a finished `Scanner`: the `tokens` list
accumulated so far, and how the run ended. -/
structure ScanResult where
  tokens : List SToken
  outcome : ScanOutcome
deriving DecidableEq, Repr

/-- The rendering of `ScriptIndex.__str__`. -/
def posStr (line col : Nat) : String :=
  "(Ln: " ++ toString line ++ ", Col: " ++ toString col ++ ")"

/-- `int(substring)` for a run of ASCII digits. -/
def digitsToNat (l : List Char) : Nat :=
  l.foldl (fun a c => a * 10 + (c.toNat - 48)) 0

/-- The note letters recognized by `Scanner.__scan_next_token`
(`c in "abcdefg"`). -/
def noteLetters : List Char := ['a', 'b', 'c', 'd', 'e', 'f', 'g']

/-- A character is a line-break character (`'\r'` or `'\n'`). -/
def isBreakChar (c : Char) : Bool := c = '\r' || c = '\n'

/-- `Scanner.__newline` after a consumed `'\r'`: the method first resets
`__current_col` to 0, then peeks for a following `'\n'` and consumes it
via `__advance()` if found — and `__advance` increments `__current_col`,
leaving the counter at **1** after a consumed `"\r\n"` pair.  The result
carries the remaining text together with that resulting column counter
(1 when the `'\n'` was consumed, else 0).  Peeking past the end of input
raises `IndexError` (`Scanner.__peek` indexes
`self.__text[self.__current]` unguarded), modelled by `none`. -/
def newlineRem : List Char → Option (List Char × Nat)
  | [] => none
  | d :: rest => if d = '\n' then some (rest, 1) else some (d :: rest, 0)

/-- Result of `Scanner.__comment`: the comment ran to end of input, or it
ended at a line break and scanning continues on `rem` with the column
counter left at `ncol` by `__newline` (1 after a consumed `"\r\n"` pair,
else 0), or the terminating `'\r'` sat at end of input so
`Scanner.__newline`'s peek raised `IndexError`. -/
inductive CommentRes where
  | eof
  | cont (rem : List Char) (ncol : Nat)
  | crash
deriving DecidableEq, Repr

/-- `Scanner.__comment`: consume characters up to and including the next
line break (`'\r\n'` consumed as a pair, as in `__newline`, which leaves
the column counter at 1). -/
def commentScan : List Char → CommentRes
  | [] => .eof
  | c :: rest =>
    if c = '\r' then
      match rest with
      | [] => .crash
      | d :: r2 => if d = '\n' then .cont r2 1 else .cont (d :: r2) 0
    else if c = '\n' then .cont rest 0
    else commentScan rest

theorem commentScan_cont_length {l rem : List Char} {ncol : Nat}
    (h : commentScan l = .cont rem ncol) : rem.length < l.length := by
  induction l with
  | nil => simp [commentScan] at h
  | cons c rest ih =>
    simp only [commentScan] at h
    by_cases hc : c = '\r'
    · simp only [hc, if_true, if_pos rfl] at h
      cases rest with
      | nil => cases h
      | cons d r2 =>
        by_cases hd : d = '\n'
        · simp only [hd, if_pos rfl] at h
          cases h
          simp
          omega
        · simp only [if_neg hd] at h
          cases h
          simp
    · simp only [if_neg hc] at h
      by_cases hc2 : c = '\n'
      · simp only [hc2, if_pos rfl] at h
        cases h
        simp
      · simp only [if_neg hc2] at h
        have := ih h
        simp
        omega

/-- The scanner loop of `Scanner.__try_scan_tokens` / `__scan_next_token`,
over the remaining text, the running 0-based `__current_ln` / `__current_col`
counters, and the `tokens` accumulated so far.

Faithfulness notes:
* each emitted token's `ScriptIndex` is computed in `__add_token` as
  `(ln + 1, current_col - len(raw) + 1)`; every character of a token's raw
  substring is consumed on the emitting line with one column increment per
  character, so this equals `(ln + 1, col + 1)` for the column counter `col`
  in force when the token's first character was consumed, which is how it is
  written below;
* `Scanner.__newline` resets the column counter and then consumes the
  `'\n'` of a `"\r\n"` pair through `__advance`, which increments the
  counter again — so scanning resumes at column counter 1 after a CRLF
  pair and at 0 after a lone break (`newlineRem` / `commentScan` return
  that resulting counter);
* the unrecognized-character branch builds its `ScriptIndex` **after**
  `__advance` has consumed the character, as
  `(ln + 1, current_col + 1) = (ln + 1, (col + 1) + 1)` for the column
  counter `col` in force before the character was consumed — one past the
  column the same character would be reported at as a token start;
* Python `str.isnumeric` is modelled by `Char.isDigit`; the two agree on
  every ASCII character (the script grammar is ASCII-only). -/
def scanAux : List Char → Nat → Nat → List SToken → ScanResult
  | [], _, _, toks => ⟨toks, .ok⟩
  | c :: rest, ln, col, toks =>
    if c = ' ' || c = '\t' then
      scanAux rest ln (col + 1) toks
    else if c = '\r' then
      match h : newlineRem rest with
      | none => ⟨toks, .crash⟩
      | some (rem, ncol) => scanAux rem (ln + 1) ncol toks
    else if c = '\n' then
      scanAux rest (ln + 1) 0 toks
    else if c = '#' then
      match h : commentScan rest with
      | .eof => ⟨toks, .ok⟩
      | .crash => ⟨toks, .crash⟩
      | .cont rem ncol => scanAux rem (ln + 1) ncol toks
    else if c = '~' then
      -- __tildes: maximal run; payload is len(raw)
      scanAux (rest.dropWhile (fun d => d = '~')) ln
        (col + 1 + (rest.takeWhile (fun d => d = '~')).length)
        (toks ++ [⟨ln + 1, col + 1, c :: rest.takeWhile (fun d => d = '~'),
          .lengthExt, .num ((rest.takeWhile (fun d => d = '~')).length + 1)⟩])
    else if c = '_' then
      scanAux rest ln (col + 1) (toks ++ [⟨ln + 1, col + 1, [c], .rest, .none⟩])
    else if c = '+' then
      scanAux rest ln (col + 1) (toks ++ [⟨ln + 1, col + 1, [c], .sharp, .none⟩])
    else if c = '-' then
      scanAux rest ln (col + 1) (toks ++ [⟨ln + 1, col + 1, [c], .flat, .none⟩])
    else if c = '>' then
      scanAux rest ln (col + 1) (toks ++ [⟨ln + 1, col + 1, [c], .octUp, .none⟩])
    else if c = '<' then
      scanAux rest ln (col + 1) (toks ++ [⟨ln + 1, col + 1, [c], .octDn, .none⟩])
    else if c = '@' then
      scanAux rest ln (col + 1)
        (toks ++ [⟨ln + 1, col + 1, [c], .bpmChange, .none⟩])
    else if c.isDigit then
      -- __number: maximal digit run; payload is int(raw)
      scanAux (rest.dropWhile Char.isDigit) ln
        (col + 1 + (rest.takeWhile Char.isDigit).length)
        (toks ++ [⟨ln + 1, col + 1, c :: rest.takeWhile Char.isDigit,
          .number, .num (digitsToNat (c :: rest.takeWhile Char.isDigit))⟩])
    else if c ∈ noteLetters then
      scanAux rest ln (col + 1)
        (toks ++ [⟨ln + 1, col + 1, [c], .noteLetter, .ch c⟩])
    else
      ⟨toks, .fail c (ln + 1) (col + 1 + 1)⟩
termination_by l => l.length
decreasing_by
  all_goals simp only [List.length_cons]
  all_goals try omega
  · have h2 : rem.length ≤ rest.length := by
      cases rest with
      | nil => simp [newlineRem] at h
      | cons d r2 =>
        simp only [newlineRem] at h
        split at h <;> (cases h; simp)
    omega
  · have h2 := commentScan_cont_length h
    omega
  · have h2 : (rest.dropWhile (fun d => d = '~')).length ≤ rest.length :=
      List.Sublist.length_le (List.dropWhile_sublist _)
    omega
  · have h2 : (rest.dropWhile Char.isDigit).length ≤ rest.length :=
      List.Sublist.length_le (List.dropWhile_sublist _)
    omega

/-- `Scanner(text)`: scan from the initial state (`__current_ln = 0`,
`__current_col = 0`, empty token list). -/
def scanList (text : List Char) : ScanResult :=
  scanAux text 0 0 []

/-- The declarative 0-based (line, column) counter state after reading a
list of characters, defined to track the scanner's running counters.  A
`'\r'` immediately followed by `'\n'` is one line break, but because
`__newline` first zeroes the column and then calls `__advance()` to
consume the `'\n'`, the counter after a consumed CRLF pair is `1`, not
`0`; every other `'\r'` or `'\n'` is its own line break and leaves the
column counter at `0`. -/
def refPos : List Char → Nat × Nat → Nat × Nat
  | [], s => s
  | [c], s => if c = '\r' ∨ c = '\n' then (s.1 + 1, 0) else (s.1, s.2 + 1)
  | c :: d :: rest, s =>
    if c = '\r' then
      if d = '\n' then refPos rest (s.1 + 1, 1)
      else refPos (d :: rest) (s.1 + 1, 0)
    else if c = '\n' then refPos (d :: rest) (s.1 + 1, 0)
    else refPos (d :: rest) (s.1, s.2 + 1)

/-- Convert a 0-based (line, column) state to the 1-based position that
tokens report. -/
def bump (p : Nat × Nat) : Nat × Nat := (p.1 + 1, p.2 + 1)

/-- The conversion used by the failure message: `__scan_next_token` builds
the reported `ScriptIndex` only after `__advance()` has moved the column
counter past the offending character, so the reported column is the
character's 0-based column plus two (one more than its 1-based column). -/
def failBump (p : Nat × Nat) : Nat × Nat := (p.1 + 1, p.2 + 2)

/-- Modelled from the spec: the characters the lexer recognizes
(whitespace, line breaks, and the token-introducing characters). -/
def recognizedChar (c : Char) : Bool :=
  decide (c = ' ') || decide (c = '\t') || decide (c = '\r') ||
  decide (c = '\n') || decide (c = '#') || decide (c = '~') ||
  decide (c = '_') || decide (c = '+') || decide (c = '-') ||
  decide (c = '>') || decide (c = '<') || decide (c = '@') ||
  c.isDigit || decide (c ∈ noteLetters)

theorem refPos_nonbreak {c : Char} (h1 : ¬c = '\r') (h2 : ¬c = '\n')
    (q : List Char) (s : Nat × Nat) :
    refPos (c :: q) s = refPos q (s.1, s.2 + 1) := by
  cases q with
  | nil => simp [refPos, h1, h2]
  | cons d q2 => simp [refPos, h1, h2]

theorem refPos_lf (q : List Char) (s : Nat × Nat) :
    refPos ('\n' :: q) s = refPos q (s.1 + 1, 0) := by
  cases q with
  | nil => simp [refPos]
  | cons d q2 => simp [refPos]

theorem refPos_crlf (q : List Char) (s : Nat × Nat) :
    refPos ('\r' :: '\n' :: q) s = refPos q (s.1 + 1, 1) := by
  simp [refPos]

theorem refPos_cr {q : List Char} (h : q.head? ≠ some '\n') (s : Nat × Nat) :
    refPos ('\r' :: q) s = refPos q (s.1 + 1, 0) := by
  cases q with
  | nil => simp [refPos]
  | cons d q2 =>
    have hd : ¬d = '\n' := by
      intro he
      exact h (by simp [List.head?, he])
    simp [refPos, hd]

theorem refPos_run {run : List Char}
    (h : ∀ d ∈ run, ¬(d = '\r' ∨ d = '\n')) (q : List Char) (s : Nat × Nat) :
    refPos (run ++ q) s = refPos q (s.1, s.2 + run.length) := by
  induction run generalizing s with
  | nil => simp
  | cons d run2 ih =>
    have hd := h d (by simp)
    rw [List.cons_append,
      refPos_nonbreak (fun he => hd (Or.inl he)) (fun he => hd (Or.inr he)),
      ih (fun e he => h e (by simp [he]))]
    have : s.2 + 1 + run2.length = s.2 + (d :: run2).length := by
      simp only [List.length_cons]
      omega
    rw [this]

theorem head?_take {q : List Char} {i : Nat} (hi : ¬i = 0) :
    (q.take i).head? = q.head? := by
  cases q with
  | nil => simp
  | cons d q2 =>
    cases i with
    | zero => exact absurd rfl hi
    | succ j => simp

/-- Case analysis for `newlineRem`. -/
theorem newlineRem_some_cases {rest rem : List Char} {ncol : Nat}
    (h : newlineRem rest = some (rem, ncol)) :
    (∃ r2, rest = '\n' :: r2 ∧ rem = r2 ∧ ncol = 1) ∨
      (rem = rest ∧ ncol = 0 ∧ rest.head? ≠ some '\n') := by
  cases rest with
  | nil => simp [newlineRem] at h
  | cons d r2 =>
    by_cases hd : d = '\n'
    · subst hd
      simp only [newlineRem, eq_self_iff_true, if_true, Option.some.injEq,
        Prod.mk.injEq] at h
      exact Or.inl ⟨r2, rfl, h.1.symm, h.2.symm⟩
    · simp only [newlineRem, if_neg hd, Option.some.injEq,
        Prod.mk.injEq] at h
      refine Or.inr ⟨h.1.symm, h.2.symm, ?_⟩
      simp only [List.head?, ne_eq, Option.some.injEq]
      exact hd

/-- Decomposition of a comment: the consumed characters are a run of
non-break characters followed by one line break, whose shape determines
both the resulting column counter and whether the following text may
begin with `'\n'`. -/
theorem commentScan_cont_spec {l rem : List Char} {ncol : Nat}
    (h : commentScan l = .cont rem ncol) :
    ∃ pre brk, l = pre ++ brk ++ rem ∧
      (∀ d ∈ pre, ¬(d = '\r' ∨ d = '\n')) ∧
      ((brk = ['\n'] ∧ ncol = 0) ∨ (brk = ['\r', '\n'] ∧ ncol = 1) ∨
        (brk = ['\r'] ∧ ncol = 0 ∧ rem.head? ≠ some '\n')) := by
  induction l with
  | nil => simp [commentScan] at h
  | cons c rest ih =>
    by_cases hc : c = '\r'
    · subst hc
      cases rest with
      | nil => simp [commentScan] at h
      | cons d r2 =>
        by_cases hd : d = '\n'
        · subst hd
          simp only [commentScan, eq_self_iff_true, if_true,
            CommentRes.cont.injEq] at h
          obtain ⟨h1, h2⟩ := h
          subst h1
          subst h2
          exact ⟨[], ['\r', '\n'], by simp, by simp,
            Or.inr (Or.inl ⟨rfl, rfl⟩)⟩
        · simp only [commentScan, eq_self_iff_true, if_true, if_neg hd,
            CommentRes.cont.injEq] at h
          obtain ⟨h1, h2⟩ := h
          subst h1
          subst h2
          refine ⟨[], ['\r'], by simp, by simp,
            Or.inr (Or.inr ⟨rfl, rfl, ?_⟩)⟩
          simp only [List.head?, ne_eq, Option.some.injEq]
          exact hd
    · by_cases hc2 : c = '\n'
      · subst hc2
        simp only [commentScan, if_neg hc, eq_self_iff_true, if_true,
          CommentRes.cont.injEq] at h
        obtain ⟨h1, h2⟩ := h
        subst h1
        subst h2
        exact ⟨[], ['\n'], by simp, by simp, Or.inl ⟨rfl, rfl⟩⟩
      · simp only [commentScan, if_neg hc, if_neg hc2] at h
        obtain ⟨pre, brk, heq, hpre, hbrk⟩ := ih h
        refine ⟨c :: pre, brk, by simp [heq], ?_, hbrk⟩
        intro d hd
        rcases List.mem_cons.mp hd with hd1 | hd1
        · subst hd1
          exact fun hor => hor.elim hc hc2
        · exact hpre d hd1

/-- The position-correctness property of one scanner state: every token the
run emits (beyond those already accumulated) starts at some index of the
remaining text, carries that index's raw substring, and reports the 1-based
reference position of that index; and every failure identifies an actual
character of the remaining text together with the post-advance variant of
its 1-based reference position (column plus one). -/
def ScanSpecAt (l : List Char) (s : Nat × Nat) (toks : List SToken)
    (res : ScanResult) : Prop :=
  (∀ t ∈ res.tokens, t ∈ toks ∨
    ∃ i, i ≤ l.length ∧ t.raw <+: l.drop i ∧
      (t.line, t.col) = bump (refPos (l.take i) s)) ∧
  (∀ c lc cc, res.outcome = .fail c lc cc →
    recognizedChar c = false ∧
      ∃ i, i ≤ l.length ∧ (l.drop i).head? = some c ∧
        (lc, cc) = failBump (refPos (l.take i) s))

/-- Lifting an indexed position/occurrence property over a consumed chunk
of text whose effect on the reference position is known. -/
theorem exists_lift {chunk rest2 : List Char} {s s2 : Nat × Nat}
    (H : ∀ i2, refPos (chunk ++ rest2.take i2) s = refPos (rest2.take i2) s2)
    (A : List Char → Prop) (conv : Nat × Nat → Nat × Nat) (pos : Nat × Nat)
    (h : ∃ i2, i2 ≤ rest2.length ∧ A (rest2.drop i2) ∧
      pos = conv (refPos (rest2.take i2) s2)) :
    ∃ i, i ≤ (chunk ++ rest2).length ∧ A ((chunk ++ rest2).drop i) ∧
      pos = conv (refPos ((chunk ++ rest2).take i) s) := by
  obtain ⟨i2, hle, hA, hpos⟩ := h
  refine ⟨chunk.length + i2, ?_, ?_, ?_⟩
  · simp only [List.length_append]
    omega
  · rw [List.drop_append]
    exact hA
  · rw [List.take_append, H i2]
    exact hpos

theorem ScanSpecAt.of_terminal {l : List Char} {s : Nat × Nat}
    {toks : List SToken} {out : ScanOutcome}
    (hout : ∀ c lc cc, out ≠ .fail c lc cc) :
    ScanSpecAt l s toks ⟨toks, out⟩ :=
  ⟨fun _ ht => Or.inl ht, fun c lc cc h => absurd h (hout c lc cc)⟩

theorem ScanSpecAt.lift_chunk (chunk : List Char) {rest2 : List Char}
    {s s2 : Nat × Nat} {toks toks2 : List SToken} {res : ScanResult}
    (H : ∀ i2, refPos (chunk ++ rest2.take i2) s = refPos (rest2.take i2) s2)
    (htoks : ∀ t ∈ toks2, t ∈ toks ∨
      (t.raw <+: chunk ++ rest2 ∧ (t.line, t.col) = bump s))
    (hspec : ScanSpecAt rest2 s2 toks2 res) :
    ScanSpecAt (chunk ++ rest2) s toks res := by
  constructor
  · intro t ht
    rcases hspec.1 t ht with hmem | hex
    · rcases htoks t hmem with h2 | ⟨hraw, hpos⟩
      · exact Or.inl h2
      · refine Or.inr ⟨0, by simp, ?_, ?_⟩
        · simpa using hraw
        · simpa [refPos] using hpos
    · exact Or.inr
        (exists_lift H (fun q => t.raw <+: q) bump (t.line, t.col) hex)
  · intro c lc cc h
    obtain ⟨hrec, hex⟩ := hspec.2 c lc cc h
    exact ⟨hrec,
      exists_lift H (fun q => q.head? = some c) failBump (lc, cc) hex⟩

theorem digit_nonbreak {d : Char} (h : d.isDigit = true) :
    ¬(d = '\r' ∨ d = '\n') := by
  rintro (he | he) <;> subst he <;> simp [Char.isDigit] at h

theorem letter_nonbreak {c : Char} (h : c ∈ noteLetters) :
    ¬c = '\r' ∧ ¬c = '\n' := by
  simp only [noteLetters, List.mem_cons, List.not_mem_nil, or_false] at h
  rcases h with h | h | h | h | h | h | h <;> subst h <;>
    exact ⟨by decide, by decide⟩

theorem tilde_run_nonbreak {rest : List Char} :
    ∀ d ∈ rest.takeWhile (fun x => x = '~'), ¬(d = '\r' ∨ d = '\n') := by
  intro d hd
  have := List.mem_takeWhile_imp hd
  have hd2 : d = '~' := by simpa using this
  subst hd2
  rintro (he | he) <;> cases he

theorem digit_run_nonbreak {rest : List Char} :
    ∀ d ∈ rest.takeWhile Char.isDigit, ¬(d = '\r' ∨ d = '\n') := by
  intro d hd
  exact digit_nonbreak (List.mem_takeWhile_imp hd)

theorem scanAux_cr_crash {rest : List Char} {ln col : Nat} {toks : List SToken}
    (h : newlineRem rest = none) :
    scanAux ('\r' :: rest) ln col toks = ⟨toks, .crash⟩ := by
  simp [scanAux]
  split
  · rfl
  · rename_i rem heq
    rw [h] at heq
    cases heq

theorem scanAux_cr_cont {rest rem : List Char} {ln col ncol : Nat}
    {toks : List SToken} (h : newlineRem rest = some (rem, ncol)) :
    scanAux ('\r' :: rest) ln col toks = scanAux rem (ln + 1) ncol toks := by
  simp [scanAux]
  split
  · rename_i heq
    rw [h] at heq
    cases heq
  · rename_i rem2 ncol2 heq
    rw [h] at heq
    cases heq
    rfl

theorem scanAux_comment_eof {rest : List Char} {ln col : Nat}
    {toks : List SToken} (h : commentScan rest = .eof) :
    scanAux ('#' :: rest) ln col toks = ⟨toks, .ok⟩ := by
  simp [scanAux]
  split
  · rfl
  · rename_i heq
    rw [h] at heq
    cases heq
  · rename_i rem ncol heq
    rw [h] at heq
    cases heq

theorem scanAux_comment_crash {rest : List Char} {ln col : Nat}
    {toks : List SToken} (h : commentScan rest = .crash) :
    scanAux ('#' :: rest) ln col toks = ⟨toks, .crash⟩ := by
  simp [scanAux]
  split
  · rename_i heq
    rw [h] at heq
    cases heq
  · rfl
  · rename_i rem ncol heq
    rw [h] at heq
    cases heq

theorem scanAux_comment_cont {rest rem : List Char} {ln col ncol : Nat}
    {toks : List SToken} (h : commentScan rest = .cont rem ncol) :
    scanAux ('#' :: rest) ln col toks = scanAux rem (ln + 1) ncol toks := by
  simp [scanAux]
  split
  · rename_i heq
    rw [h] at heq
    cases heq
  · rename_i heq
    rw [h] at heq
    cases heq
  · rename_i rem2 ncol2 heq
    rw [h] at heq
    cases heq
    rfl

/-- Master correctness lemma for the scanner: from any running state, every
emitted token and every failure reports the 1-based reference position of an
actual occurrence in the remaining text. -/
theorem scanAux_spec : ∀ l ln col toks,
    ScanSpecAt l (ln, col) toks (scanAux l ln col toks) := by
  intro l ln col toks
  induction l, ln, col, toks using scanAux.induct with
  | case1 ln col toks =>
    rw [show scanAux [] ln col toks = ⟨toks, .ok⟩ from by simp [scanAux]]
    exact ScanSpecAt.of_terminal fun c lc cc h => ScanOutcome.noConfusion h
  | case2 c rest ln col toks h ih =>
    have hc : c = ' ' ∨ c = '\t' := by simpa using h
    have hcr : ¬c = '\r' := by rcases hc with rfl | rfl <;> decide
    have hlf : ¬c = '\n' := by rcases hc with rfl | rfl <;> decide
    rw [show scanAux (c :: rest) ln col toks = scanAux rest ln (col + 1) toks
      from by simp [scanAux, h]]
    exact ScanSpecAt.lift_chunk [c]
      (fun i2 => refPos_nonbreak hcr hlf _ _) (fun t ht => Or.inl ht) ih
  | case3 rest ln col toks h h1 =>
    rw [scanAux_cr_crash h]
    exact ScanSpecAt.of_terminal fun c lc cc h2 => ScanOutcome.noConfusion h2
  | case4 rest ln col toks rem ncol h h1 ih =>
    rw [scanAux_cr_cont h]
    rcases newlineRem_some_cases h with ⟨r2, hr, hrem, hncol⟩ |
      ⟨hrem, hncol, hhead⟩
    · subst hr
      subst hrem
      subst hncol
      exact ScanSpecAt.lift_chunk ['\r', '\n']
        (fun i2 => refPos_crlf _ _) (fun t ht => Or.inl ht) ih
    · subst hrem
      subst hncol
      refine ScanSpecAt.lift_chunk ['\r']
        (fun i2 => ?_) (fun t ht => Or.inl ht) ih
      rw [List.singleton_append]
      by_cases hi : i2 = 0
      · subst hi
        simp [refPos]
      · exact refPos_cr (by rw [head?_take hi]; exact hhead) _
  | case5 rest ln col toks h1 h2 ih =>
    rw [show scanAux ('\n' :: rest) ln col toks = scanAux rest (ln + 1) 0 toks
      from by simp [scanAux]]
    exact ScanSpecAt.lift_chunk ['\n']
      (fun i2 => refPos_lf _ _) (fun t ht => Or.inl ht) ih
  | case6 rest ln col toks h h1 h2 h3 =>
    rw [scanAux_comment_eof h]
    exact ScanSpecAt.of_terminal fun c lc cc h4 => ScanOutcome.noConfusion h4
  | case7 rest ln col toks h h1 h2 h3 =>
    rw [scanAux_comment_crash h]
    exact ScanSpecAt.of_terminal fun c lc cc h4 => ScanOutcome.noConfusion h4
  | case8 rest ln col toks rem ncol h h1 h2 h3 ih =>
    rw [scanAux_comment_cont h]
    obtain ⟨pre, brk, heq, hpre, hbrk⟩ := commentScan_cont_spec h
    subst heq
    show ScanSpecAt (('#' :: (pre ++ brk)) ++ rem) (ln, col) toks _
    refine ScanSpecAt.lift_chunk _ (fun i2 => ?_) (fun t ht => Or.inl ht) ih
    have e1 : ('#' :: (pre ++ brk)) ++ rem.take i2 =
        '#' :: (pre ++ (brk ++ rem.take i2)) := by
      simp [List.append_assoc]
    rw [e1, refPos_nonbreak (by decide) (by decide), refPos_run hpre]
    rcases hbrk with ⟨hb, hn⟩ | ⟨hb, hn⟩ | ⟨hb, hn, hh⟩
    · subst hb
      subst hn
      rw [List.singleton_append, refPos_lf]
    · subst hb
      subst hn
      rw [List.cons_append, List.singleton_append, refPos_crlf]
    · subst hb
      subst hn
      rw [List.singleton_append]
      by_cases hi : i2 = 0
      · subst hi
        simp [refPos]
      · rw [refPos_cr (by rw [head?_take hi]; exact hh)]
  | case9 rest ln col toks h1 h2 h3 h4 ih =>
    rw [show scanAux ('~' :: rest) ln col toks =
        scanAux (rest.dropWhile (fun d => d = '~')) ln
          (col + 1 + (rest.takeWhile (fun d => d = '~')).length)
          (toks ++ [⟨ln + 1, col + 1, '~' :: rest.takeWhile (fun d => d = '~'),
            .lengthExt, .num ((rest.takeWhile (fun d => d = '~')).length + 1)⟩])
      from by simp [scanAux]]
    have hgoal : ('~' : Char) :: rest =
        ('~' :: rest.takeWhile (fun d => d = '~')) ++
          rest.dropWhile (fun d => d = '~') := by
      rw [List.cons_append, List.takeWhile_append_dropWhile]
    rw [hgoal]
    refine ScanSpecAt.lift_chunk _ (fun i2 => ?_) ?_ ih
    · rw [List.cons_append, refPos_nonbreak (by decide) (by decide),
        refPos_run tilde_run_nonbreak]
    · intro t ht
      rcases List.mem_append.mp ht with hm | hm
      · exact Or.inl hm
      · rcases List.mem_singleton.mp hm with rfl
        exact Or.inr ⟨⟨_, rfl⟩, rfl⟩
  | case10 rest ln col toks h1 h2 h3 h4 h5 ih =>
    rw [show scanAux ('_' :: rest) ln col toks = scanAux rest ln (col + 1)
        (toks ++ [⟨ln + 1, col + 1, ['_'], .rest, .none⟩])
      from by simp [scanAux]]
    refine ScanSpecAt.lift_chunk ['_']
      (fun i2 => refPos_nonbreak (by decide) (by decide) _ _) ?_ ih
    intro t ht
    rcases List.mem_append.mp ht with hm | hm
    · exact Or.inl hm
    · rcases List.mem_singleton.mp hm with rfl
      exact Or.inr ⟨⟨_, rfl⟩, rfl⟩
  | case11 rest ln col toks h1 h2 h3 h4 h5 h6 ih =>
    rw [show scanAux ('+' :: rest) ln col toks = scanAux rest ln (col + 1)
        (toks ++ [⟨ln + 1, col + 1, ['+'], .sharp, .none⟩])
      from by simp [scanAux]]
    refine ScanSpecAt.lift_chunk ['+']
      (fun i2 => refPos_nonbreak (by decide) (by decide) _ _) ?_ ih
    intro t ht
    rcases List.mem_append.mp ht with hm | hm
    · exact Or.inl hm
    · rcases List.mem_singleton.mp hm with rfl
      exact Or.inr ⟨⟨_, rfl⟩, rfl⟩
  | case12 rest ln col toks h1 h2 h3 h4 h5 h6 h7 ih =>
    rw [show scanAux ('-' :: rest) ln col toks = scanAux rest ln (col + 1)
        (toks ++ [⟨ln + 1, col + 1, ['-'], .flat, .none⟩])
      from by simp [scanAux]]
    refine ScanSpecAt.lift_chunk ['-']
      (fun i2 => refPos_nonbreak (by decide) (by decide) _ _) ?_ ih
    intro t ht
    rcases List.mem_append.mp ht with hm | hm
    · exact Or.inl hm
    · rcases List.mem_singleton.mp hm with rfl
      exact Or.inr ⟨⟨_, rfl⟩, rfl⟩
  | case13 rest ln col toks h1 h2 h3 h4 h5 h6 h7 h8 ih =>
    rw [show scanAux ('>' :: rest) ln col toks = scanAux rest ln (col + 1)
        (toks ++ [⟨ln + 1, col + 1, ['>'], .octUp, .none⟩])
      from by simp [scanAux]]
    refine ScanSpecAt.lift_chunk ['>']
      (fun i2 => refPos_nonbreak (by decide) (by decide) _ _) ?_ ih
    intro t ht
    rcases List.mem_append.mp ht with hm | hm
    · exact Or.inl hm
    · rcases List.mem_singleton.mp hm with rfl
      exact Or.inr ⟨⟨_, rfl⟩, rfl⟩
  | case14 rest ln col toks h1 h2 h3 h4 h5 h6 h7 h8 h9 ih =>
    rw [show scanAux ('<' :: rest) ln col toks = scanAux rest ln (col + 1)
        (toks ++ [⟨ln + 1, col + 1, ['<'], .octDn, .none⟩])
      from by simp [scanAux]]
    refine ScanSpecAt.lift_chunk ['<']
      (fun i2 => refPos_nonbreak (by decide) (by decide) _ _) ?_ ih
    intro t ht
    rcases List.mem_append.mp ht with hm | hm
    · exact Or.inl hm
    · rcases List.mem_singleton.mp hm with rfl
      exact Or.inr ⟨⟨_, rfl⟩, rfl⟩
  | case15 rest ln col toks h1 h2 h3 h4 h5 h6 h7 h8 h9 h10 ih =>
    rw [show scanAux ('@' :: rest) ln col toks = scanAux rest ln (col + 1)
        (toks ++ [⟨ln + 1, col + 1, ['@'], .bpmChange, .none⟩])
      from by simp [scanAux]]
    refine ScanSpecAt.lift_chunk ['@']
      (fun i2 => refPos_nonbreak (by decide) (by decide) _ _) ?_ ih
    intro t ht
    rcases List.mem_append.mp ht with hm | hm
    · exact Or.inl hm
    · rcases List.mem_singleton.mp hm with rfl
      exact Or.inr ⟨⟨_, rfl⟩, rfl⟩
  | case16 c rest ln col toks h1 h2 h3 h4 h5 h6 h7 h8 h9 h10 h11 hdig ih =>
    have hcr : ¬c = '\r' ∧ ¬c = '\n' := by
      have := digit_nonbreak hdig
      exact ⟨fun he => this (Or.inl he), fun he => this (Or.inr he)⟩
    rw [show scanAux (c :: rest) ln col toks =
        scanAux (rest.dropWhile Char.isDigit) ln
          (col + 1 + (rest.takeWhile Char.isDigit).length)
          (toks ++ [⟨ln + 1, col + 1, c :: rest.takeWhile Char.isDigit,
            .number, .num (digitsToNat (c :: rest.takeWhile Char.isDigit))⟩])
      from by simp [scanAux, h1, h2, h3, h4, h5, h6, h7, h8, h9, h10, h11, hdig]]
    have hgoal : c :: rest =
        (c :: rest.takeWhile Char.isDigit) ++ rest.dropWhile Char.isDigit := by
      rw [List.cons_append, List.takeWhile_append_dropWhile]
    rw [hgoal]
    refine ScanSpecAt.lift_chunk _ (fun i2 => ?_) ?_ ih
    · rw [List.cons_append, refPos_nonbreak hcr.1 hcr.2,
        refPos_run digit_run_nonbreak]
    · intro t ht
      rcases List.mem_append.mp ht with hm | hm
      · exact Or.inl hm
      · rcases List.mem_singleton.mp hm with rfl
        exact Or.inr ⟨⟨_, rfl⟩, rfl⟩
  | case17 c rest ln col toks h1 h2 h3 h4 h5 h6 h7 h8 h9 h10 h11 h12 hmem ih =>
    have hcr := letter_nonbreak hmem
    rw [show scanAux (c :: rest) ln col toks = scanAux rest ln (col + 1)
        (toks ++ [⟨ln + 1, col + 1, [c], .noteLetter, .ch c⟩])
      from by
        simp [scanAux, h1, h2, h3, h4, h5, h6, h7, h8, h9, h10, h11, h12, hmem]]
    refine ScanSpecAt.lift_chunk [c]
      (fun i2 => refPos_nonbreak hcr.1 hcr.2 _ _) ?_ ih
    intro t ht
    rcases List.mem_append.mp ht with hm | hm
    · exact Or.inl hm
    · rcases List.mem_singleton.mp hm with rfl
      exact Or.inr ⟨⟨_, rfl⟩, rfl⟩
  | case18 c rest ln col toks h1 h2 h3 h4 h5 h6 h7 h8 h9 h10 h11 h12 h13 =>
    rw [show scanAux (c :: rest) ln col toks =
        ⟨toks, .fail c (ln + 1) (col + 1 + 1)⟩
      from by
        simp [scanAux, h1, h2, h3, h4, h5, h6, h7, h8, h9, h10, h11, h12, h13]]
    constructor
    · exact fun t ht => Or.inl ht
    · intro c2 lc cc hf
      injection hf with e1 e2 e3
      subst e1
      subst e2
      subst e3
      constructor
      · have hsp : ¬c = ' ' ∧ ¬c = '\t' := by simpa using h1
        have hd : c.isDigit = false := by simpa using h12
        simp [recognizedChar, hsp.1, hsp.2, h2, h3, h4, h5, h6, h7, h8, h9,
          h10, h11, hd, h13]
      · exact ⟨0, by simp, by simp, by simp [refPos, failBump]⟩

end TFS

namespace TFS

/-! ## The rendering environment (`tfs_env.py`) and the waveform generator
(`signal_generator.py`).

The beat/tempo arithmetic only ever manipulates rationals, so it is embedded
over `ℚ`; pitch and phase are genuinely real-valued (`2 ** ((n - 69) / 12)`),
so the generator is embedded over `ℝ` (which makes those definitions
noncomputable — no claim depends on evaluating an irrational sample value).
-/

/-- Python `int(x)` applied to a float: truncation toward zero. -/
def pyInt (x : ℚ) : ℤ := if 0 ≤ x then ⌊x⌋ else ⌈x⌉

/-- `TFSEnvironment.__get_num_samples`:
`int(sample_rate * (60 / bpm) * (duration / beat_divisor)) * 4`. -/
def getNumSamples (sample_rate : ℕ) (bpm : ℚ) (beat_divisor duration : ℕ) :
    ℤ :=
  pyInt ((sample_rate : ℚ) * (60 / bpm) *
    ((duration : ℚ) / (beat_divisor : ℚ))) * 4

/-- Python `range(a, b)` as the list of integers it contains. -/
def pyRange (a b : ℤ) : List ℤ :=
  (List.range (b - a).toNat).map (fun i => a + i)

/-- State of the one concrete generator, `PulseGenerator` (a
`SignalGenerator` subclass): `_sample_rate`, `_freq`, `_pulse_percent`, and
the private elapsed-sample counter `__samples_elapsed`. -/
structure PulseGenerator where
  sample_rate : ℕ
  freq : ℝ
  pulse_percent : ℝ
  samples_elapsed : ℕ

/-- `SignalGenerator.set_freq`: does not reset the elapsed-sample counter. -/
def PulseGenerator.set_freq (g : PulseGenerator) (freq : ℝ) :
    PulseGenerator :=
  { g with freq := freq }

/-- `SignalGenerator.set_sample_rate`: calls `reset()`, zeroing the
elapsed-sample counter. -/
def PulseGenerator.set_sample_rate (g : PulseGenerator) (sample_rate : ℕ) :
    PulseGenerator :=
  { g with sample_rate := sample_rate, samples_elapsed := 0 }

/-- `SignalGenerator.next_sample` with the `PulseGenerator` subclass's
`_next_sample_internal`: `time = elapsed / rate`,
`wave_position = time * freq % 1` (Python `%` with modulus 1 lands in
`[0, 1)`, which is `Int.fract`), amplitude `1` below the duty threshold and
`-1` at or above it; then the counter advances by one. -/
noncomputable def PulseGenerator.next_sample (g : PulseGenerator) :
    ℝ × PulseGenerator :=
  (if Int.fract (((g.samples_elapsed : ℝ) / (g.sample_rate : ℝ)) * g.freq) <
      g.pulse_percent then (1 : ℝ) else -1,
    { g with samples_elapsed := g.samples_elapsed + 1 })

/-- `n` successive `next_sample()` calls, returning the samples in call
order together with the generator state left behind. -/
noncomputable def runSynth : PulseGenerator → ℕ → List ℝ × PulseGenerator
  | g, 0 => ([], g)
  | g, n + 1 =>
    let p := g.next_sample
    let q := runSynth p.2 n
    (p.1 :: q.1, q.2)

/-- `TFSEnvironment` state: sample rate, tempo (`__bpm`, class default
`120.0`), output gain (`__gain`, class default `0.25`), and the owned
generator (`__synth`). -/
structure TFSEnvironment where
  sample_rate : ℕ
  bpm : ℚ
  gain : ℚ
  synth : PulseGenerator

/-- `TFSEnvironment.__init__(sample_rate)`: keeps the class defaults for
bpm and gain and owns `PulseGenerator(sample_rate, 440, 0.125)`. -/
noncomputable def TFSEnvironment.init (sample_rate : ℕ) : TFSEnvironment :=
  { sample_rate := sample_rate, bpm := 120, gain := 1 / 4,
    synth := ⟨sample_rate, 440, 1 / 8, 0⟩ }

/-- `TFSEnvironment.set_bpm`: accepts only positive tempos, silently
ignores the rest. -/
def TFSEnvironment.set_bpm (e : TFSEnvironment) (bpm : ℚ) : TFSEnvironment :=
  if bpm > 0 then { e with bpm := bpm } else e

/-- `TFSEnvironment.set_gain`: `if gain in range(0, 1)`.  Python's
`range(0, 1)` holds the single integer 0, and `in` tests numeric equality
against its elements, so the guard holds exactly when `gain == 0`. -/
def TFSEnvironment.set_gain (e : TFSEnvironment) (gain : ℚ) :
    TFSEnvironment :=
  if gain ∈ (pyRange 0 1).map (fun k => (k : ℚ)) then { e with gain := gain }
  else e

/-- `TFSEnvironment.__get_freq`: `2 ** ((note_num - 69) / 12) * 440.0`. -/
noncomputable def getFreq (note_num : ℤ) : ℝ :=
  Real.rpow 2 (((note_num : ℝ) - 69) / 12) * 440.0

/-- `TFSEnvironment.note`: set the synth frequency, compute the sample
count, and collect that many `next_sample()` values, each multiplied by
the gain (`range(num_samples)` of a negative int is empty, hence `toNat`).
The per-iteration multiplication of the comprehension is written as a `map`
over the collected samples, which builds the identical list. -/
noncomputable def TFSEnvironment.note (e : TFSEnvironment) (note_num : ℤ)
    (beat_divisor duration : ℕ) : List ℝ × TFSEnvironment :=
  let synth1 := e.synth.set_freq (getFreq note_num)
  let p := runSynth synth1
    (getNumSamples e.sample_rate e.bpm beat_divisor duration).toNat
  (p.1.map (fun s => s * (e.gain : ℝ)), { e with synth := p.2 })

/-- `TFSEnvironment.rest`: the same sample count, all samples `0.0`, the
generator untouched. -/
noncomputable def TFSEnvironment.rest (e : TFSEnvironment)
    (beat_divisor duration : ℕ) : List ℝ × TFSEnvironment :=
  (List.replicate
    (getNumSamples e.sample_rate e.bpm beat_divisor duration).toNat (0 : ℝ),
    e)

end TFS

namespace TFS

/-! ## The parser/interpreter (`tfs_script.py`, class `Parser`). -/

/-- `Parser.__NOTE_NUM_OFFSETS` (pitch-class offset per note letter). -/
def noteNumOffsets (c : Char) : Option ℤ :=
  if c = 'a' then some 9
  else if c = 'b' then some 11
  else if c = 'c' then some 0
  else if c = 'd' then some 2
  else if c = 'e' then some 4
  else if c = 'f' then some 5
  else if c = 'g' then some 7
  else none

/-- `Parser.MAX_OCTAVE`. -/
def MAX_OCTAVE : ℤ := 9

/-- `Parser.MIN_OCTAVE`. -/
def MIN_OCTAVE : ℤ := 0

/-- Python `str(...)` of a token payload. -/
def TokVal.pyStr : TokVal → String
  | .none => "None"
  | .ch c => String.mk [c]
  | .num n => toString n

/-- The error message of `Parser.__required_param` when the next token has
the wrong type. -/
def unexpectedAfterMsg (prec : SToken) (found : SToken)
    (expected : TokType) : String :=
  "Unexpected token after " ++ prec.ttype.dispName ++ " at " ++
    posStr prec.line prec.col ++ ": " ++ found.ttype.dispName ++
    " (Expected: " ++ expected.dispName ++ ")"

/-- The error message of `Parser.__required_param` when the tokens ran
out. -/
def missingAfterMsg (prec : SToken) (expected : TokType) : String :=
  "Missing token after " ++ prec.ttype.dispName ++ " at " ++
    posStr prec.line prec.col ++ ". Expected: " ++ expected.dispName

/-- The zero-divisor error message of `Parser.__note` / `Parser.__rest`. -/
def divisorMsg (d : SToken) : String :=
  "Measure divisor at " ++ posStr d.line d.col ++ " must be greater than 0"

/-- The non-positive-tempo error message of `Parser.__bpm_change`. -/
def bpmMsg (d : SToken) : String :=
  "BPM number at " ++ posStr d.line d.col ++ " must be greater than 0."

/-- The top-level dispatch error message of `Parser.__parse_next_token`. -/
def unexpectedTopMsg (t : SToken) : String :=
  "Unexpected token at " ++ posStr t.line t.col ++ ": " ++
    t.ttype.dispName ++
    " (Expected: Note, rest, octave change, or BPM change)"

/-- The unrecognized-letter error message of `Parser.__note`. -/
def unrecognizedLetterMsg (t : SToken) : String :=
  "Unrecognized note letter at " ++ posStr t.line t.col ++ ": " ++
    t.value.pyStr

/-- The mutable state a running `Parser` threads: `__octave` (initially 5),
`samples`, and the shared `__env`. -/
structure PState where
  octave : ℤ
  samples : List ℝ
  env : TFSEnvironment

/-- The observable state of a finished `Parser.__init__`: the `success`
flag, `error_msg`, `samples`, the final octave and environment, plus a
`crashed` flag modelling an uncaught Python exception escaping the
constructor. -/
structure PResult where
  success : Bool
  crashed : Bool
  error_msg : String
  samples : List ℝ
  octave : ℤ
  env : TFSEnvironment

/-- Successful end of `Parser.__try_parse_tokens`. -/
def PResult.ofOk (st : PState) : PResult :=
  ⟨true, false, "Text parsed successfully", st.samples, st.octave, st.env⟩

/-- `Parser.__error`: records the message and stops the parse. -/
def PResult.ofFail (msg : String) (st : PState) : PResult :=
  ⟨false, false, msg, st.samples, st.octave, st.env⟩

/-- An uncaught exception escaping `Parser.__init__` (`error_msg` still
holds its initial value `"Incomplete"`). -/
def PResult.ofCrash (st : PState) : PResult :=
  ⟨false, true, "Incomplete", st.samples, st.octave, st.env⟩

mutual

/-- `Parser.__try_parse_tokens` / `__parse_next_token`: single forward pass
with one-token lookahead, fail-fast.

Faithfulness notes:
* the rest-construct's length-extension arm reproduces the source line
  `duration += Token(length_ext_token).value`: `Token.__init__` accepts no
  argument beyond `self`, so that call raises `TypeError` — the `crash`
  outcome — before any samples are generated for the rest;
* comparing a non-int payload with `> 0`, or `+=`-ing one, would raise
  `TypeError`, also a `crash` (the scanner only ever puts ints there);
* `Parser.__octave_change` clamps with `min`/`max` against
  `MAX_OCTAVE`/`MIN_OCTAVE`. -/
noncomputable def parseAux : List SToken → PState → PResult
  | [], st => .ofOk st
  | t :: rest, st =>
    match t.ttype with
    | .noteLetter =>
      match t.value with
      | .ch letter =>
        match noteNumOffsets letter with
        | some off =>
          -- optional Sharp, else optional Flat (first match wins)
          match rest with
          | s :: rest2 =>
            if s.ttype = .sharp then
              noteCont t (st.octave * 12 + off + 1) rest2 st
            else if s.ttype = .flat then
              noteCont t (st.octave * 12 + off - 1) rest2 st
            else noteCont t (st.octave * 12 + off) (s :: rest2) st
          | [] => noteCont t (st.octave * 12 + off) [] st
        | none => .ofFail (unrecognizedLetterMsg t) st
      | _ => .ofFail (unrecognizedLetterMsg t) st
    | .rest =>
      match rest with
      | [] => .ofFail (missingAfterMsg t .number) st
      | d :: rest2 =>
        if d.ttype = .number then
          match d.value with
          | .num n =>
            if n > 0 then
              match rest2 with
              | e :: rest3 =>
                if e.ttype = .lengthExt then
                  -- `Token(length_ext_token)` raises TypeError
                  .ofCrash st
                else
                  let p := st.env.rest n 1
                  parseAux (e :: rest3) ⟨st.octave, st.samples ++ p.1, p.2⟩
              | [] =>
                let p := st.env.rest n 1
                parseAux [] ⟨st.octave, st.samples ++ p.1, p.2⟩
            else .ofFail (divisorMsg d) st
          | _ => .ofCrash st
        else .ofFail (unexpectedAfterMsg t d .number) st
    | .octUp =>
      parseAux rest ⟨min MAX_OCTAVE (st.octave + 1), st.samples, st.env⟩
    | .octDn =>
      parseAux rest ⟨max MIN_OCTAVE (st.octave - 1), st.samples, st.env⟩
    | .bpmChange =>
      match rest with
      | [] => .ofFail (missingAfterMsg t .number) st
      | d :: rest2 =>
        if d.ttype = .number then
          match d.value with
          | .num n =>
            if n > 0 then
              parseAux rest2 ⟨st.octave, st.samples, st.env.set_bpm (n : ℚ)⟩
            else .ofFail (bpmMsg d) st
          | _ => .ofCrash st
        else .ofFail (unexpectedAfterMsg t d .number) st
    | _ => .ofFail (unexpectedTopMsg t) st
termination_by l _ => l.length

/-- `Parser.__note` past the accidental step: the required `Number`
divisor, the optional `LengthExtension`, the `RenderEnvironment.note`
call. -/
noncomputable def noteCont : SToken → ℤ → List SToken → PState → PResult
  | nlt, _, [], st => .ofFail (missingAfterMsg nlt .number) st
  | nlt, note_num, d :: rest2, st =>
    if d.ttype = .number then
      match d.value with
      | .num n =>
        if n > 0 then
          match rest2 with
          | e :: rest3 =>
            if e.ttype = .lengthExt then
              match e.value with
              | .num k =>
                let p := st.env.note note_num n (1 + k)
                parseAux rest3 ⟨st.octave, st.samples ++ p.1, p.2⟩
              | _ => .ofCrash st
            else
              let p := st.env.note note_num n 1
              parseAux (e :: rest3) ⟨st.octave, st.samples ++ p.1, p.2⟩
          | [] =>
            let p := st.env.note note_num n 1
            parseAux [] ⟨st.octave, st.samples ++ p.1, p.2⟩
        else .ofFail (divisorMsg d) st
      | _ => .ofCrash st
    else .ofFail (unexpectedAfterMsg nlt d .number) st
termination_by _ _ l _ => l.length

end

/-- `Parser(tokens, environment)`: parse from octave 5 with no samples. -/
noncomputable def parseTokens (tokens : List SToken) (env : TFSEnvironment) :
    PResult :=
  parseAux tokens ⟨5, [], env⟩

end TFS

namespace TFS

/-! ## Environment-level lemmas. -/

theorem set_bpm_gain (e : TFSEnvironment) (b : ℚ) :
    (e.set_bpm b).gain = e.gain := by
  unfold TFSEnvironment.set_bpm
  split <;> rfl

theorem set_bpm_octfree (e : TFSEnvironment) (b : ℚ) :
    (e.set_bpm b).sample_rate = e.sample_rate := by
  unfold TFSEnvironment.set_bpm
  split <;> rfl

theorem runSynth_length (g : PulseGenerator) (n : ℕ) :
    (runSynth g n).1.length = n := by
  induction n generalizing g with
  | zero => rfl
  | succ m ih => simp [runSynth, ih]

theorem runSynth_mem (g : PulseGenerator) (n : ℕ) :
    ∀ s ∈ (runSynth g n).1, s = 1 ∨ s = -1 := by
  induction n generalizing g with
  | zero => simp [runSynth]
  | succ m ih =>
    intro s hs
    simp only [runSynth, List.mem_cons] at hs
    rcases hs with hs | hs
    · subst hs
      unfold PulseGenerator.next_sample
      split
      · exact Or.inl rfl
      · exact Or.inr rfl
    · exact ih _ s hs

theorem note_length (e : TFSEnvironment) (note_num : ℤ)
    (beat_divisor duration : ℕ) :
    (e.note note_num beat_divisor duration).1.length =
      (getNumSamples e.sample_rate e.bpm beat_divisor duration).toNat := by
  simp [TFSEnvironment.note, runSynth_length]

theorem rest_length (e : TFSEnvironment) (beat_divisor duration : ℕ) :
    (e.rest beat_divisor duration).1.length =
      (getNumSamples e.sample_rate e.bpm beat_divisor duration).toNat := by
  simp [TFSEnvironment.rest]

theorem note_env (e : TFSEnvironment) (note_num : ℤ)
    (beat_divisor duration : ℕ) :
    (e.note note_num beat_divisor duration).2.gain = e.gain ∧
    (e.note note_num beat_divisor duration).2.sample_rate = e.sample_rate ∧
    (e.note note_num beat_divisor duration).2.bpm = e.bpm := by
  refine ⟨?_, ?_, ?_⟩ <;> simp [TFSEnvironment.note]

theorem rest_env (e : TFSEnvironment) (beat_divisor duration : ℕ) :
    (e.rest beat_divisor duration).2 = e := rfl

theorem note_mem (e : TFSEnvironment) (note_num : ℤ)
    (beat_divisor duration : ℕ) :
    ∀ s ∈ (e.note note_num beat_divisor duration).1,
      s = (e.gain : ℝ) ∨ s = -(e.gain : ℝ) := by
  intro s hs
  simp only [TFSEnvironment.note, List.mem_map] at hs
  obtain ⟨x, hx, hxe⟩ := hs
  rcases runSynth_mem _ _ x hx with h1 | h1
  · subst h1
    exact Or.inl (by rw [← hxe, one_mul])
  · subst h1
    exact Or.inr (by rw [← hxe, neg_one_mul])

theorem rest_mem (e : TFSEnvironment) (beat_divisor duration : ℕ) :
    ∀ s ∈ (e.rest beat_divisor duration).1, s = 0 := by
  intro s hs
  simp only [TFSEnvironment.rest, List.mem_replicate] at hs
  exact hs.2

theorem getNumSamples_dvd (sample_rate : ℕ) (bpm : ℚ)
    (beat_divisor duration : ℕ) :
    4 ∣ (getNumSamples sample_rate bpm beat_divisor duration).toNat := by
  unfold getNumSamples
  generalize pyInt ((sample_rate : ℚ) * (60 / bpm) *
    ((duration : ℚ) / (beat_divisor : ℚ))) = z
  omega

end TFS

namespace TFS

/-- The state-evolution invariant of a `Parser` run: the octave stays in
`[0, 9]` when it started there; the octave is unchanged when no
octave-shift token is consumed; the gain is never modified; and the
samples only grow, by blocks whose length is a multiple of 4 and whose
elements are `0` or `±gain`. -/
def ParserInv (l : List SToken) (st : PState) (r : PResult) : Prop :=
  (0 ≤ st.octave ∧ st.octave ≤ 9 → 0 ≤ r.octave ∧ r.octave ≤ 9) ∧
  ((∀ t ∈ l, ¬t.ttype = TokType.octUp ∧ ¬t.ttype = TokType.octDn) →
    r.octave = st.octave) ∧
  r.env.gain = st.env.gain ∧
  ∃ suffix, r.samples = st.samples ++ suffix ∧ 4 ∣ suffix.length ∧
    ∀ s ∈ suffix, s = 0 ∨ s = (st.env.gain : ℝ) ∨ s = -(st.env.gain : ℝ)

theorem ParserInv.same_state (l : List SToken) (st : PState)
    (success crashed : Bool) (msg : String) :
    ParserInv l st ⟨success, crashed, msg, st.samples, st.octave, st.env⟩ := by
  refine ⟨fun h => h, fun _ => rfl, rfl, [], by simp, ⟨0, rfl⟩, ?_⟩
  intro s hs
  cases hs

theorem ParserInv.of_ok (l : List SToken) (st : PState) :
    ParserInv l st (.ofOk st) :=
  ParserInv.same_state l st true false "Text parsed successfully"

theorem ParserInv.of_fail (l : List SToken) (st : PState) (msg : String) :
    ParserInv l st (.ofFail msg st) :=
  ParserInv.same_state l st false false msg

theorem ParserInv.of_crash (l : List SToken) (st : PState) :
    ParserInv l st (.ofCrash st) :=
  ParserInv.same_state l st false true "Incomplete"

/-- Compose one parser step (consuming tokens, moving to state `st2` and
appending the block `blk`) with the invariant for the remaining run. -/
theorem ParserInv.comp {l rest2 : List SToken} {st st2 : PState}
    {r : PResult} (blk : List ℝ)
    (hsub : ∀ t, t ∈ rest2 → t ∈ l)
    (IH : ParserInv rest2 st2 r)
    (hrange : 0 ≤ st.octave ∧ st.octave ≤ 9 →
      0 ≤ st2.octave ∧ st2.octave ≤ 9)
    (hocteq : (∀ t ∈ l, ¬t.ttype = TokType.octUp ∧
      ¬t.ttype = TokType.octDn) → st2.octave = st.octave)
    (hgain : st2.env.gain = st.env.gain)
    (hsamp : st2.samples = st.samples ++ blk)
    (hdvd : 4 ∣ blk.length)
    (hblk : ∀ s ∈ blk, s = 0 ∨ s = (st.env.gain : ℝ) ∨
      s = -(st.env.gain : ℝ)) : ParserInv l st r := by
  obtain ⟨A2, B2, C2, suffix2, hs2, hd2, hm2⟩ := IH
  refine ⟨fun h => A2 (hrange h), ?_, by rw [C2, hgain],
    blk ++ suffix2, ?_, ?_, ?_⟩
  · intro hcond
    rw [B2 (fun t ht => hcond t (hsub t ht)), hocteq hcond]
  · rw [hs2, hsamp, List.append_assoc]
  · simp only [List.length_append]
    exact Nat.dvd_add hdvd hd2
  · intro s hs
    rcases List.mem_append.mp hs with hs | hs
    · exact hblk s hs
    · rcases hm2 s hs with h0 | hg | hg
      · exact Or.inl h0
      · exact Or.inr (Or.inl (by rw [hg, hgain]))
      · exact Or.inr (Or.inr (by rw [hg, hgain]))

end TFS

namespace TFS

set_option maxHeartbeats 1000000 in
/-- The invariant `ParserInv` holds of every parser run. -/
theorem parse_inv : ∀ l st, ParserInv l st (parseAux l st) := by
  intro l0 st0
  refine parseAux.induct
    (fun l st => ParserInv l st (parseAux l st))
    (fun t n l st => ParserInv l st (noteCont t n l st))
    ?c1 ?c2 ?c3 ?c4 ?c5 ?c6 ?c7 ?c8 ?c9 ?c10 ?c11 ?c12 ?c13 ?c14 ?c15
    ?c16 ?c17 ?c18 ?c19 ?c20 ?c21 ?c22 ?c23 ?c24 ?c25 ?c26 ?c27 ?c28
    ?c29 ?c30 l0 st0
  case c1 =>
    intro st
    rw [show parseAux [] st = .ofOk st from by simp [parseAux]]
    exact ParserInv.of_ok _ _
  case c2 =>
    intro t st ht letter hval off hoff s rest2 hs ih
    rw [show parseAux (t :: s :: rest2) st =
        noteCont t (st.octave * 12 + off + 1) rest2 st from by
      simp [parseAux, ht, hval, hoff, hs]]
    exact ParserInv.comp []
      (fun x hx => List.mem_cons_of_mem _ (List.mem_cons_of_mem _ hx)) ih
      (fun h => h) (fun _ => rfl) rfl (by simp) ⟨0, rfl⟩
      (fun s hs => by cases hs)
  case c3 =>
    intro t st ht letter hval off hoff s rest2 hns hs ih
    rw [show parseAux (t :: s :: rest2) st =
        noteCont t (st.octave * 12 + off - 1) rest2 st from by
      simp [parseAux, ht, hval, hoff, hns, hs]]
    exact ParserInv.comp []
      (fun x hx => List.mem_cons_of_mem _ (List.mem_cons_of_mem _ hx)) ih
      (fun h => h) (fun _ => rfl) rfl (by simp) ⟨0, rfl⟩
      (fun s hs => by cases hs)
  case c4 =>
    intro t st ht letter hval off hoff s rest2 hns hnf ih
    rw [show parseAux (t :: s :: rest2) st =
        noteCont t (st.octave * 12 + off) (s :: rest2) st from by
      simp [parseAux, ht, hval, hoff, hns, hnf]]
    exact ParserInv.comp [] (fun x hx => List.mem_cons_of_mem _ hx) ih
      (fun h => h) (fun _ => rfl) rfl (by simp) ⟨0, rfl⟩
      (fun s hs => by cases hs)
  case c5 =>
    intro t st ht letter hval off hoff ih
    rw [show parseAux [t] st =
        noteCont t (st.octave * 12 + off) [] st from by
      simp [parseAux, ht, hval, hoff]]
    exact ParserInv.comp [] (fun x hx => absurd hx (List.not_mem_nil x)) ih
      (fun h => h) (fun _ => rfl) rfl (by simp) ⟨0, rfl⟩
      (fun s hs => by cases hs)
  case c6 =>
    intro t rest st ht letter hval hoff
    have hofail : parseAux (t :: rest) st =
        .ofFail (unrecognizedLetterMsg t) st := by
      cases rest <;> simp [parseAux, ht, hval, hoff]
    rw [hofail]
    exact ParserInv.of_fail _ _ _
  case c7 =>
    intro t rest st ht hno
    have hofail : parseAux (t :: rest) st =
        .ofFail (unrecognizedLetterMsg t) st := by
      rcases hv : t.value with _ | c | n
      · cases rest <;> simp [parseAux, ht, hv]
      · exact absurd hv (fun h => hno c h)
      · cases rest <;> simp [parseAux, ht, hv]
    rw [hofail]
    exact ParserInv.of_fail _ _ _
  case c8 =>
    intro t st ht
    rw [show parseAux [t] st = .ofFail (missingAfterMsg t .number) st
      from by simp [parseAux, ht]]
    exact ParserInv.of_fail _ _ _
  case c9 =>
    intro t st ht d hd n hval hn s rest2 hs
    rw [show parseAux (t :: d :: s :: rest2) st = .ofCrash st from by
      simp [parseAux, ht, hd, hval, hn, hs]]
    exact ParserInv.of_crash _ _
  case c10 =>
    intro t st ht d hd n hval hn s rest2 hns p ih
    have hp : p = st.env.rest n 1 := rfl
    rw [hp] at ih
    rw [show parseAux (t :: d :: s :: rest2) st = parseAux (s :: rest2)
        ⟨st.octave, st.samples ++ (st.env.rest n 1).1, (st.env.rest n 1).2⟩
      from by simp [parseAux, ht, hd, hval, hn, hns]]
    refine ParserInv.comp (st.env.rest n 1).1
      (fun x hx => List.mem_cons_of_mem _ (List.mem_cons_of_mem _ hx)) ih
      (fun h => h) (fun _ => rfl) (by rw [rest_env]) rfl ?_ ?_
    · rw [rest_length]
      exact getNumSamples_dvd _ _ _ _
    · exact fun s hs => Or.inl (rest_mem _ _ _ s hs)
  case c11 =>
    intro t st ht d hd n hval hn p ih
    have hp : p = st.env.rest n 1 := rfl
    rw [hp] at ih
    rw [show parseAux [t, d] st = parseAux []
        ⟨st.octave, st.samples ++ (st.env.rest n 1).1, (st.env.rest n 1).2⟩
      from by simp [parseAux, ht, hd, hval, hn]]
    refine ParserInv.comp (st.env.rest n 1).1
      (fun x hx => absurd hx (List.not_mem_nil x)) ih
      (fun h => h) (fun _ => rfl) (by rw [rest_env]) rfl ?_ ?_
    · rw [rest_length]
      exact getNumSamples_dvd _ _ _ _
    · exact fun s hs => Or.inl (rest_mem _ _ _ s hs)
  case c12 =>
    intro t st ht d rest2 hd n hval hn
    rw [show parseAux (t :: d :: rest2) st = .ofFail (divisorMsg d) st
      from by simp [parseAux, ht, hd, hval, hn]]
    exact ParserInv.of_fail _ _ _
  case c13 =>
    intro t st ht d rest2 hd hno
    rcases hv : d.value with _ | c | n
    · rw [show parseAux (t :: d :: rest2) st = .ofCrash st
        from by simp [parseAux, ht, hd, hv]]
      exact ParserInv.of_crash _ _
    · rw [show parseAux (t :: d :: rest2) st = .ofCrash st
        from by simp [parseAux, ht, hd, hv]]
      exact ParserInv.of_crash _ _
    · exact absurd hv (fun h => hno n h)
  case c14 =>
    intro t st ht d rest2 hd
    rw [show parseAux (t :: d :: rest2) st =
        .ofFail (unexpectedAfterMsg t d .number) st
      from by simp [parseAux, ht, hd]]
    exact ParserInv.of_fail _ _ _
  case c15 =>
    intro t rest st ht ih
    have hstep : parseAux (t :: rest) st = parseAux rest
        ⟨min MAX_OCTAVE (st.octave + 1), st.samples, st.env⟩ := by
      cases rest <;> simp [parseAux, ht]
    rw [hstep]
    refine ParserInv.comp [] (fun x hx => List.mem_cons_of_mem _ hx) ih
      ?_ ?_ rfl (by simp) ⟨0, rfl⟩ (fun s hs => by cases hs)
    · intro h
      simp only [MAX_OCTAVE]
      omega
    · intro hcond
      exact absurd ht (hcond t (by simp)).1
  case c16 =>
    intro t rest st ht ih
    have hstep : parseAux (t :: rest) st = parseAux rest
        ⟨max MIN_OCTAVE (st.octave - 1), st.samples, st.env⟩ := by
      cases rest <;> simp [parseAux, ht]
    rw [hstep]
    refine ParserInv.comp [] (fun x hx => List.mem_cons_of_mem _ hx) ih
      ?_ ?_ rfl (by simp) ⟨0, rfl⟩ (fun s hs => by cases hs)
    · intro h
      simp only [MIN_OCTAVE]
      omega
    · intro hcond
      exact absurd ht (hcond t (by simp)).2
  case c17 =>
    intro t st ht
    rw [show parseAux [t] st = .ofFail (missingAfterMsg t .number) st
      from by simp [parseAux, ht]]
    exact ParserInv.of_fail _ _ _
  case c18 =>
    intro t st ht d rest2 hd n hval hn ih
    rw [show parseAux (t :: d :: rest2) st = parseAux rest2
        ⟨st.octave, st.samples, st.env.set_bpm (n : ℚ)⟩
      from by simp [parseAux, ht, hd, hval, hn]]
    exact ParserInv.comp []
      (fun x hx => List.mem_cons_of_mem _ (List.mem_cons_of_mem _ hx)) ih
      (fun h => h) (fun _ => rfl) (set_bpm_gain _ _) (by simp) ⟨0, rfl⟩
      (fun s hs => by cases hs)
  case c19 =>
    intro t st ht d rest2 hd n hval hn
    rw [show parseAux (t :: d :: rest2) st = .ofFail (bpmMsg d) st
      from by simp [parseAux, ht, hd, hval, hn]]
    exact ParserInv.of_fail _ _ _
  case c20 =>
    intro t st ht d rest2 hd hno
    rcases hv : d.value with _ | c | n
    · rw [show parseAux (t :: d :: rest2) st = .ofCrash st
        from by simp [parseAux, ht, hd, hv]]
      exact ParserInv.of_crash _ _
    · rw [show parseAux (t :: d :: rest2) st = .ofCrash st
        from by simp [parseAux, ht, hd, hv]]
      exact ParserInv.of_crash _ _
    · exact absurd hv (fun h => hno n h)
  case c21 =>
    intro t st ht d rest2 hd
    rw [show parseAux (t :: d :: rest2) st =
        .ofFail (unexpectedAfterMsg t d .number) st
      from by simp [parseAux, ht, hd]]
    exact ParserInv.of_fail _ _ _
  case c22 =>
    intro t rest st h1 h2 h3 h4 h5
    have hofail : parseAux (t :: rest) st =
        .ofFail (unexpectedTopMsg t) st := by
      rcases htv : t.ttype
      · exact absurd htv h1
      · exact absurd htv h2
      · cases rest <;> simp [parseAux, htv]
      · cases rest <;> simp [parseAux, htv]
      · cases rest <;> simp [parseAux, htv]
      · cases rest <;> simp [parseAux, htv]
      · exact absurd htv h3
      · exact absurd htv h4
      · exact absurd htv h5
    rw [hofail]
    exact ParserInv.of_fail _ _ _
  case c23 =>
    intro nlt x st
    rw [show noteCont nlt x [] st = .ofFail (missingAfterMsg nlt .number) st
      from by simp [noteCont]]
    exact ParserInv.of_fail _ _ _
  case c24 =>
    intro nlt note_num d st hd n hval hn s rest2 hs k hvk p ih
    have hp : p = st.env.note note_num n (1 + k) := rfl
    rw [hp] at ih
    rw [show noteCont nlt note_num (d :: s :: rest2) st = parseAux rest2
        ⟨st.octave, st.samples ++ (st.env.note note_num n (1 + k)).1,
          (st.env.note note_num n (1 + k)).2⟩
      from by simp [noteCont, hd, hval, hn, hs, hvk]]
    refine ParserInv.comp (st.env.note note_num n (1 + k)).1
      (fun x hx => List.mem_cons_of_mem _ (List.mem_cons_of_mem _ hx)) ih
      (fun h => h) (fun _ => rfl) ((note_env _ _ _ _).1) rfl ?_ ?_
    · rw [note_length]
      exact getNumSamples_dvd _ _ _ _
    · intro s hs
      rcases note_mem _ _ _ _ s hs with h | h
      · exact Or.inr (Or.inl h)
      · exact Or.inr (Or.inr h)
  case c25 =>
    intro nlt note_num d st hd n hval hn s rest2 hs hno
    rcases hv : s.value with _ | c | m
    · rw [show noteCont nlt note_num (d :: s :: rest2) st = .ofCrash st
        from by simp [noteCont, hd, hval, hn, hs, hv]]
      exact ParserInv.of_crash _ _
    · rw [show noteCont nlt note_num (d :: s :: rest2) st = .ofCrash st
        from by simp [noteCont, hd, hval, hn, hs, hv]]
      exact ParserInv.of_crash _ _
    · exact absurd hv (fun h => hno m h)
  case c26 =>
    intro nlt note_num d st hd n hval hn s rest2 hns p ih
    have hp : p = st.env.note note_num n 1 := rfl
    rw [hp] at ih
    rw [show noteCont nlt note_num (d :: s :: rest2) st = parseAux (s :: rest2)
        ⟨st.octave, st.samples ++ (st.env.note note_num n 1).1,
          (st.env.note note_num n 1).2⟩
      from by simp [noteCont, hd, hval, hn, hns]]
    refine ParserInv.comp (st.env.note note_num n 1).1
      (fun x hx => List.mem_cons_of_mem _ hx) ih
      (fun h => h) (fun _ => rfl) ((note_env _ _ _ _).1) rfl ?_ ?_
    · rw [note_length]
      exact getNumSamples_dvd _ _ _ _
    · intro s hs
      rcases note_mem _ _ _ _ s hs with h | h
      · exact Or.inr (Or.inl h)
      · exact Or.inr (Or.inr h)
  case c27 =>
    intro nlt note_num d st hd n hval hn p ih
    have hp : p = st.env.note note_num n 1 := rfl
    rw [hp] at ih
    rw [show noteCont nlt note_num [d] st = parseAux []
        ⟨st.octave, st.samples ++ (st.env.note note_num n 1).1,
          (st.env.note note_num n 1).2⟩
      from by simp [noteCont, hd, hval, hn]]
    refine ParserInv.comp (st.env.note note_num n 1).1
      (fun x hx => absurd hx (List.not_mem_nil x)) ih
      (fun h => h) (fun _ => rfl) ((note_env _ _ _ _).1) rfl ?_ ?_
    · rw [note_length]
      exact getNumSamples_dvd _ _ _ _
    · intro s hs
      rcases note_mem _ _ _ _ s hs with h | h
      · exact Or.inr (Or.inl h)
      · exact Or.inr (Or.inr h)
  case c28 =>
    intro nlt note_num d rest2 st hd n hval hn
    rw [show noteCont nlt note_num (d :: rest2) st = .ofFail (divisorMsg d) st
      from by simp [noteCont, hd, hval, hn]]
    exact ParserInv.of_fail _ _ _
  case c29 =>
    intro nlt note_num d rest2 st hd hno
    rcases hv : d.value with _ | c | m
    · rw [show noteCont nlt note_num (d :: rest2) st = .ofCrash st
        from by simp [noteCont, hd, hv]]
      exact ParserInv.of_crash _ _
    · rw [show noteCont nlt note_num (d :: rest2) st = .ofCrash st
        from by simp [noteCont, hd, hv]]
      exact ParserInv.of_crash _ _
    · exact absurd hv (fun h => hno m h)
  case c30 =>
    intro nlt note_num d rest2 st hd
    rw [show noteCont nlt note_num (d :: rest2) st =
        .ofFail (unexpectedAfterMsg nlt d .number) st
      from by simp [noteCont, hd]]
    exact ParserInv.of_fail _ _ _

end TFS

namespace TFS

/-! ## Claim theorems. -/

theorem getNumSamples_pos_eq {sample_rate : ℕ} {bpm : ℚ}
    {beat_divisor duration : ℕ} (hb : 0 < bpm) :
    getNumSamples sample_rate bpm beat_divisor duration =
      ⌊(sample_rate : ℚ) * (60 / bpm) *
        ((duration : ℚ) / (beat_divisor : ℚ))⌋ * 4 := by
  unfold getNumSamples pyInt
  have hx : 0 ≤ (sample_rate : ℚ) * (60 / bpm) *
      ((duration : ℚ) / (beat_divisor : ℚ)) := by
    apply mul_nonneg
    · apply mul_nonneg
      · exact Nat.cast_nonneg _
      · exact div_nonneg (by norm_num) hb.le
    · exact div_nonneg (Nat.cast_nonneg _) (Nat.cast_nonneg _)
  rw [if_pos hx]

theorem getNumSamples_nonneg {sample_rate : ℕ} {bpm : ℚ}
    {beat_divisor duration : ℕ} (hb : 0 < bpm) :
    0 ≤ getNumSamples sample_rate bpm beat_divisor duration := by
  rw [getNumSamples_pos_eq hb]
  have hx : 0 ≤ (sample_rate : ℚ) * (60 / bpm) *
      ((duration : ℚ) / (beat_divisor : ℚ)) := by
    apply mul_nonneg
    · apply mul_nonneg
      · exact Nat.cast_nonneg _
      · exact div_nonneg (by norm_num) hb.le
    · exact div_nonneg (Nat.cast_nonneg _) (Nat.cast_nonneg _)
  have := Int.floor_nonneg.mpr hx
  omega

theorem pipelineEnv_fields :
    ((TFSEnvironment.init 44100).set_bpm 160).sample_rate = 44100 ∧
    ((TFSEnvironment.init 44100).set_bpm 160).bpm = 160 ∧
    ((TFSEnvironment.init 44100).set_bpm 160).gain = 1 / 4 := by
  refine ⟨?_, ?_, ?_⟩ <;>
    simp [TFSEnvironment.set_bpm, TFSEnvironment.init]

theorem getNumSamples_8268 : getNumSamples 44100 160 8 1 = 8268 := by
  norm_num [getNumSamples, pyInt]

/-- C1: for every positive sample rate, tempo, divisor `d` and duration
`u`, one `note()` or `rest()` call produces exactly
`floor(sample_rate * (60 / bpm) * (u / d)) * 4` samples — the floor
(Python `int`, truncation of a non-negative value) is applied before the
final multiplication by 4; in particular `sample_rate = 44100`,
`bpm = 160`, `d = 8`, `u = 1` yields exactly `8268` samples. -/
theorem claim1_sample_count :
    (∀ (e : TFSEnvironment) (note_num : ℤ) (d u : ℕ),
      0 < e.sample_rate → 0 < e.bpm → 0 < d → 0 < u →
        ((e.note note_num d u).1.length : ℤ) =
          ⌊(e.sample_rate : ℚ) * (60 / e.bpm) * ((u : ℚ) / (d : ℚ))⌋ * 4 ∧
        ((e.rest d u).1.length : ℤ) =
          ⌊(e.sample_rate : ℚ) * (60 / e.bpm) * ((u : ℚ) / (d : ℚ))⌋ * 4) ∧
    getNumSamples 44100 160 8 1 = 8268 ∧
    (((TFSEnvironment.init 44100).set_bpm 160).note 69 8 1).1.length = 8268 ∧
    (((TFSEnvironment.init 44100).set_bpm 160).rest 8 1).1.length = 8268 := by
  obtain ⟨hr, hb, hg⟩ := pipelineEnv_fields
  refine ⟨?_, getNumSamples_8268, ?_, ?_⟩
  · intro e note_num d u hrate hbpm hd hu
    constructor
    · rw [note_length, Int.toNat_of_nonneg (getNumSamples_nonneg hbpm),
        getNumSamples_pos_eq hbpm]
    · rw [rest_length, Int.toNat_of_nonneg (getNumSamples_nonneg hbpm),
        getNumSamples_pos_eq hbpm]
  · rw [note_length, hr, hb, getNumSamples_8268]
    rfl
  · rw [rest_length, hr, hb, getNumSamples_8268]
    rfl

/-- Witness for C1 at the concrete pipeline environment
(`sample_rate = 44100`, `bpm = 160`, divisor 8, duration 1). -/
theorem claim1_sample_count_witness :
    ((((TFSEnvironment.init 44100).set_bpm 160).note 69 8 1).1.length : ℤ) =
      ⌊(((TFSEnvironment.init 44100).set_bpm 160).sample_rate : ℚ) *
        (60 / ((TFSEnvironment.init 44100).set_bpm 160).bpm) *
        ((1 : ℚ) / (8 : ℚ))⌋ * 4 ∧
    ((((TFSEnvironment.init 44100).set_bpm 160).rest 8 1).1.length : ℤ) =
      ⌊(((TFSEnvironment.init 44100).set_bpm 160).sample_rate : ℚ) *
        (60 / ((TFSEnvironment.init 44100).set_bpm 160).bpm) *
        ((1 : ℚ) / (8 : ℚ))⌋ * 4 :=
  claim1_sample_count.1 ((TFSEnvironment.init 44100).set_bpm 160) 69 8 1
    (by rw [pipelineEnv_fields.1]; norm_num)
    (by rw [pipelineEnv_fields.2.1]; norm_num)
    (by norm_num) (by norm_num)

end TFS

namespace TFS

/-- C2 (code bug evidence): a `Rest` token followed by a positive `Number`
divisor and a `LengthExtension` makes `Parser.__rest` evaluate
`Token(length_ext_token)`, whose `__init__` takes no argument — an
uncaught `TypeError` (the `crashed` outcome) instead of the claimed
`RenderEnvironment.rest(divisor, 1 + k)` call.  The same token shapes
behind a note letter, or a rest without extension, parse successfully. -/
theorem claim2_rest_extension_crash :
    (parseTokens [⟨1, 1, ['_'], .rest, .none⟩, ⟨1, 2, ['8'], .number, .num 8⟩,
      ⟨1, 3, ['~'], .lengthExt, .num 1⟩]
      (TFSEnvironment.init 44100)).crashed = true ∧
    (parseTokens [⟨1, 1, ['a'], .noteLetter, .ch 'a'⟩,
      ⟨1, 2, ['8'], .number, .num 8⟩, ⟨1, 3, ['~'], .lengthExt, .num 1⟩]
      (TFSEnvironment.init 44100)).success = true ∧
    (parseTokens [⟨1, 1, ['_'], .rest, .none⟩, ⟨1, 2, ['8'], .number, .num 8⟩]
      (TFSEnvironment.init 44100)).success = true := by
  refine ⟨?_, ?_, ?_⟩
  · simp [parseTokens, parseAux, PResult.ofCrash]
  · simp [parseTokens, parseAux, noteCont, noteNumOffsets, PResult.ofOk]
  · simp [parseTokens, parseAux, PResult.ofOk]

/-- C3 (code bug evidence): on input ending in a carriage-return character
— bare, after tokens, or terminating a comment at end of input — the
scanner's `__newline` peeks past the end of the text and the unguarded
`__peek` raises `IndexError` (the `crash` outcome), so the lexer does not
return a success/failure result there; with the `'\n'` present the same
inputs scan successfully. -/
theorem claim3_lexer_crash_on_cr :
    (scanList ['\r']).outcome = .crash ∧
    (scanList ['a', '8', '\r']).outcome = .crash ∧
    (scanList ['#', 'x', '\r']).outcome = .crash ∧
    (scanList ['a', '8', '\r', '\n']).outcome = .ok ∧
    (scanList ['#', 'x', '\r', '\n']).outcome = .ok := by
  refine ⟨?_, ?_, ?_, ?_, ?_⟩ <;>
    simp [scanList, scanAux, newlineRem, commentScan, noteLetters]

theorem set_gain_ite (e : TFSEnvironment) (g : ℚ) :
    e.set_gain g = if g = 0 then { e with gain := g } else e := by
  unfold TFSEnvironment.set_gain
  have hr : (pyRange 0 1).map (fun k => (k : ℚ)) = [((0 : ℤ) : ℚ)] := rfl
  rw [hr]
  by_cases hg : g = 0
  · simp [hg]
  · simp [hg]

/-- C4: `TFSEnvironment.set_gain(g)` tests `g in range(0, 1)`, an integer
range holding only 0, so the stored gain is updated exactly when `g = 0`
and every other argument — including every fractional gain in `(0, 1)`
and the value 1 — leaves the environment unchanged. -/
theorem claim4_set_gain :
    ∀ (e : TFSEnvironment) (g : ℚ),
      e.set_gain g = if g = 0 then { e with gain := g } else e :=
  set_gain_ite

end TFS

namespace TFS

/-- C5 counterexample: the claim asserts that each token reports the
1-based line and column of its first character, treating a CR/LF pair in
either order as one line break.  Both parts fail: on `"a\r\nb"` the token
`b` — the first character of line 2 — reports column 2, because
`__newline` zeroes the column counter and then calls `__advance()` to
consume the `'\n'`; and on `"a\n\rb"` the token `b` reports line 3,
because `'\n'` followed by `'\r'` counts as two separate breaks. -/
theorem claim5_counterexample :
    ((scanList ['a', '\r', '\n', 'b']).tokens.map (fun t => (t.line, t.col)) =
      [(1, 1), (2, 2)] ∧
    ¬((scanList ['a', '\r', '\n', 'b']).tokens.map
        (fun t => (t.line, t.col)) = [(1, 1), (2, 1)])) ∧
    ((scanList ['a', '\n', '\r', 'b']).tokens.map (fun t => (t.line, t.col)) =
      [(1, 1), (3, 1)] ∧
    ¬((scanList ['a', '\n', '\r', 'b']).tokens.map
        (fun t => (t.line, t.col)) = [(1, 1), (2, 1)])) := by
  refine ⟨⟨?_, ?_⟩, ?_, ?_⟩ <;>
    simp [scanList, scanAux, newlineRem, noteLetters]

/-- C5 (amended): every emitted token reports the 1-based line and column
of its first character in the source text — where a `'\r'` immediately
followed by `'\n'` counts as one line break whose consumption leaves the
column counter at 1, so the first token on a line opened by a `"\r\n"`
break reports column 2; any other `'\r'` or `'\n'` is its own break and
resets the column counter to 0, so after a lone `'\n'` the first token
reports column 1; and `'\n'` followed by `'\r'` counts as two breaks. -/
theorem claim5_token_positions :
    (∀ (text : List Char) (t : SToken), t ∈ (scanList text).tokens →
      ∃ i, i ≤ text.length ∧ t.raw <+: text.drop i ∧
        (t.line, t.col) = bump (refPos (text.take i) (0, 0))) ∧
    (scanList ['a', '\r', '\n', 'b']).tokens.map (fun t => (t.line, t.col)) =
      [(1, 1), (2, 2)] ∧
    (scanList ['a', '\n', 'b']).tokens.map (fun t => (t.line, t.col)) =
      [(1, 1), (2, 1)] := by
  refine ⟨?_, ?_, ?_⟩
  · intro text t ht
    rcases (scanAux_spec text 0 0 []).1 t ht with hmem | hex
    · cases hmem
    · exact hex
  · simp [scanList, scanAux, newlineRem, noteLetters]
  · simp [scanList, scanAux, newlineRem, noteLetters]

/-- Witness for C5 at the one-character input `"a"` and its token. -/
theorem claim5_token_positions_witness :
    ∃ i, i ≤ (['a'] : List Char).length ∧
      (⟨1, 1, ['a'], TokType.noteLetter, TokVal.ch 'a'⟩ : SToken).raw <+:
        (['a'] : List Char).drop i ∧
      ((1 : Nat), (1 : Nat)) = bump (refPos ((['a'] : List Char).take i) (0, 0)) :=
  claim5_token_positions.1 ['a'] ⟨1, 1, ['a'], .noteLetter, .ch 'a'⟩
    (by simp [scanList, scanAux, noteLetters])

/-- C6 counterexample: two failures of the claim as stated.  Input `"#z"`
contains the unrecognized character `'z'` yet lexing succeeds, because
comment bodies are discarded unexamined; and on `"a8 z4"` the failure at
`'z'` — which sits at line 1, column 4 of the text — reports column 5,
because the message is built from the column counter after `__advance()`
has stepped past the character. -/
theorem claim6_counterexample :
    ('z' ∈ (['#', 'z'] : List Char) ∧ recognizedChar 'z' = false ∧
      (scanList ['#', 'z']).outcome = .ok) ∧
    ((scanList ['a', '8', ' ', 'z', '4']).outcome = .fail 'z' 1 5 ∧
      ¬(scanList ['a', '8', ' ', 'z', '4']).outcome = .fail 'z' 1 4) := by
  refine ⟨⟨by simp, by decide, ?_⟩, ?_, ?_⟩
  · simp [scanList, scanAux, commentScan]
  · simp [scanList, scanAux, digitsToNat, noteLetters]
  · simp [scanList, scanAux, digitsToNat, noteLetters]

/-- C6 (amended): outside comments, the lexer fails exactly at
unrecognized characters: every failure identifies a character outside the
recognized set (whitespace, line breaks, `'#'`, `'~'`, `'_'`, `'+'`,
`'-'`, `'>'`, `'<'`, `'@'`, digits, letters a–g) together with the
1-based line of an actual occurrence of it in the input and a reported
column one greater than that occurrence's 1-based column, because the
message is built only after the counter has advanced past the character;
characters inside comments are discarded without failing; in particular
`"a8 z4"` fails at `'z'` reporting (line 1, column 5) while `"#z"`
succeeds. -/
theorem claim6_unrecognized_char :
    ((scanList ['a', '8', ' ', 'z', '4']).outcome = .fail 'z' 1 5) ∧
    (∀ (text : List Char) (c : Char) (lc cc : Nat),
      (scanList text).outcome = .fail c lc cc →
        recognizedChar c = false ∧
          ∃ i, i ≤ text.length ∧ (text.drop i).head? = some c ∧
            (lc, cc) = failBump (refPos (text.take i) (0, 0))) ∧
    ((scanList ['#', 'z']).outcome = .ok) := by
  refine ⟨?_, ?_, ?_⟩
  · simp [scanList, scanAux, digitsToNat, noteLetters]
  · intro text c lc cc h
    exact (scanAux_spec text 0 0 []).2 c lc cc h
  · simp [scanList, scanAux, commentScan]

/-- Witness for C6 at the one-character input `"z"`: the failure reports
line 1 and column 2, one past the character's own column. -/
theorem claim6_unrecognized_char_witness :
    recognizedChar 'z' = false ∧
      ∃ i, i ≤ (['z'] : List Char).length ∧
        ((['z'] : List Char).drop i).head? = some 'z' ∧
        ((1 : Nat), (2 : Nat)) =
          failBump (refPos ((['z'] : List Char).take i) (0, 0)) :=
  claim6_unrecognized_char.2.1 ['z'] 'z' 1 2
    (by simp [scanList, scanAux, noteLetters])

end TFS

namespace TFS

/-- C7: the parser's octave starts at 5; from any octave in `[0, 9]` it
stays in `[0, 9]` after any token sequence; it is unchanged by sequences
without octave-shift tokens; and ten consecutive `OctaveUp` tokens from 5
clamp at 9 while ten consecutive `OctaveDown` tokens clamp at 0. -/
theorem claim7_octave :
    (∀ (env : TFSEnvironment), (parseTokens [] env).octave = 5) ∧
    (∀ (l : List SToken) (st : PState), 0 ≤ st.octave → st.octave ≤ 9 →
      0 ≤ (parseAux l st).octave ∧ (parseAux l st).octave ≤ 9) ∧
    (∀ (l : List SToken) (st : PState),
      (∀ t ∈ l, ¬t.ttype = TokType.octUp ∧ ¬t.ttype = TokType.octDn) →
      (parseAux l st).octave = st.octave) ∧
    (∀ (env : TFSEnvironment),
      (parseTokens (List.replicate 10 ⟨1, 1, ['>'], .octUp, .none⟩)
        env).octave = 9) ∧
    (∀ (env : TFSEnvironment),
      (parseTokens (List.replicate 10 ⟨1, 1, ['<'], .octDn, .none⟩)
        env).octave = 0) := by
  refine ⟨?_, ?_, ?_, ?_, ?_⟩
  · intro env
    simp [parseTokens, parseAux, PResult.ofOk]
  · intro l st h1 h2
    exact (parse_inv l st).1 ⟨h1, h2⟩
  · intro l st h
    exact (parse_inv l st).2.1 h
  · intro env
    norm_num [parseTokens, parseAux, List.replicate, PResult.ofOk,
      MAX_OCTAVE]
  · intro env
    norm_num [parseTokens, parseAux, List.replicate, PResult.ofOk,
      MIN_OCTAVE]

/-- Witness for C7 on a concrete run: a sharp token at top level is not
an octave change and can not move the octave, which stays in range. -/
theorem claim7_octave_witness :
    (0 ≤ (parseAux [⟨1, 1, ['+'], TokType.sharp, TokVal.none⟩]
        ⟨5, [], TFSEnvironment.init 44100⟩).octave ∧
      (parseAux [⟨1, 1, ['+'], TokType.sharp, TokVal.none⟩]
        ⟨5, [], TFSEnvironment.init 44100⟩).octave ≤ 9) ∧
    (parseAux [⟨1, 1, ['+'], TokType.sharp, TokVal.none⟩]
        ⟨5, [], TFSEnvironment.init 44100⟩).octave =
      (⟨5, [], TFSEnvironment.init 44100⟩ : PState).octave :=
  ⟨claim7_octave.2.1 [⟨1, 1, ['+'], .sharp, .none⟩]
      ⟨5, [], TFSEnvironment.init 44100⟩ (by norm_num) (by norm_num),
    claim7_octave.2.2.1 [⟨1, 1, ['+'], .sharp, .none⟩]
      ⟨5, [], TFSEnvironment.init 44100⟩
      (by intro t ht; rcases List.mem_singleton.mp ht with rfl
          exact ⟨by decide, by decide⟩)⟩

end TFS

namespace TFS

/-- C8 counterexample: on the token sequence of `"a4 a0"` (rendered at
sample rate 8 so the first note yields 4 samples) the parse fails at the
zero divisor, yet the parser's result still carries the samples
accumulated for `a4` — they are surfaced in the `samples` field rather
than discarded. -/
theorem claim8_counterexample :
    (parseTokens [⟨1, 1, ['a'], .noteLetter, .ch 'a'⟩,
      ⟨1, 2, ['4'], .number, .num 4⟩, ⟨1, 4, ['a'], .noteLetter, .ch 'a'⟩,
      ⟨1, 5, ['0'], .number, .num 0⟩] (TFSEnvironment.init 8)).success =
        false ∧
    ¬((parseTokens [⟨1, 1, ['a'], .noteLetter, .ch 'a'⟩,
      ⟨1, 2, ['4'], .number, .num 4⟩, ⟨1, 4, ['a'], .noteLetter, .ch 'a'⟩,
      ⟨1, 5, ['0'], .number, .num 0⟩] (TFSEnvironment.init 8)).samples =
        []) := by
  have hstep : parseTokens [⟨1, 1, ['a'], .noteLetter, .ch 'a'⟩,
      ⟨1, 2, ['4'], .number, .num 4⟩, ⟨1, 4, ['a'], .noteLetter, .ch 'a'⟩,
      ⟨1, 5, ['0'], .number, .num 0⟩] (TFSEnvironment.init 8) =
      .ofFail (divisorMsg ⟨1, 5, ['0'], .number, .num 0⟩)
        ⟨5, [] ++ ((TFSEnvironment.init 8).note 69 4 1).1,
          ((TFSEnvironment.init 8).note 69 4 1).2⟩ := by
    simp [parseTokens, parseAux, noteCont, noteNumOffsets]
  rw [hstep]
  refine ⟨rfl, ?_⟩
  intro hnil
  have hlen := congrArg List.length hnil
  rw [List.length_nil, PResult.ofFail] at hlen
  simp only [List.nil_append, note_length] at hlen
  rw [show getNumSamples (TFSEnvironment.init 8).sample_rate
      (TFSEnvironment.init 8).bpm 4 1 = 4 from by
    norm_num [TFSEnvironment.init, getNumSamples, pyInt]] at hlen
  cases hlen

/-- C8 (amended): on a failing token sequence the parser's result carries
`success = false` and the error message, while the samples accumulated
from constructs processed before the error are retained in the `samples`
field — samples only ever grow by appending and are never discarded; the
caller is expected to consult `success` before using them. -/
theorem claim8_failure_keeps_samples :
    (∀ (l : List SToken) (st : PState),
      ∃ suffix, (parseAux l st).samples = st.samples ++ suffix) ∧
    ((parseTokens [⟨1, 1, ['a'], .noteLetter, .ch 'a'⟩,
      ⟨1, 2, ['4'], .number, .num 4⟩, ⟨1, 4, ['a'], .noteLetter, .ch 'a'⟩,
      ⟨1, 5, ['0'], .number, .num 0⟩] (TFSEnvironment.init 8)).success =
        false ∧
     (parseTokens [⟨1, 1, ['a'], .noteLetter, .ch 'a'⟩,
      ⟨1, 2, ['4'], .number, .num 4⟩, ⟨1, 4, ['a'], .noteLetter, .ch 'a'⟩,
      ⟨1, 5, ['0'], .number, .num 0⟩] (TFSEnvironment.init 8)).error_msg =
        "Measure divisor at (Ln: 1, Col: 5) must be greater than 0" ∧
     (parseTokens [⟨1, 1, ['a'], .noteLetter, .ch 'a'⟩,
      ⟨1, 2, ['4'], .number, .num 4⟩, ⟨1, 4, ['a'], .noteLetter, .ch 'a'⟩,
      ⟨1, 5, ['0'], .number, .num 0⟩]
        (TFSEnvironment.init 8)).samples.length = 4) := by
  constructor
  · intro l st
    obtain ⟨_, _, _, suffix, hs, _, _⟩ := parse_inv l st
    exact ⟨suffix, hs⟩
  · have hstep : parseTokens [⟨1, 1, ['a'], .noteLetter, .ch 'a'⟩,
        ⟨1, 2, ['4'], .number, .num 4⟩, ⟨1, 4, ['a'], .noteLetter, .ch 'a'⟩,
        ⟨1, 5, ['0'], .number, .num 0⟩] (TFSEnvironment.init 8) =
        .ofFail (divisorMsg ⟨1, 5, ['0'], .number, .num 0⟩)
          ⟨5, [] ++ ((TFSEnvironment.init 8).note 69 4 1).1,
            ((TFSEnvironment.init 8).note 69 4 1).2⟩ := by
      simp [parseTokens, parseAux, noteCont, noteNumOffsets]
    rw [hstep]
    refine ⟨rfl, by decide, ?_⟩
    rw [PResult.ofFail]
    simp only [List.nil_append, note_length]
    rw [show getNumSamples (TFSEnvironment.init 8).sample_rate
        (TFSEnvironment.init 8).bpm 4 1 = 4 from by
      norm_num [TFSEnvironment.init, getNumSamples, pyInt]]
    rfl

end TFS

namespace TFS

/-- C9: for any token sequence the pipeline parser accepts (environment
`TFSEnvironment(44100-like rate)` with `set_bpm(160)`, as in `tfs.py`),
every produced sample lies in `[-1, 1]`: rest samples are exactly `0.0`
and note samples are the pulse generator's `±1` output scaled by the
gain, which stays within `[0, 1]` under every environment operation. -/
theorem claim9_sample_range :
    (∀ (tokens : List SToken) (rate : ℕ),
      (parseTokens tokens ((TFSEnvironment.init rate).set_bpm 160)).success =
        true →
      ∀ s ∈ (parseTokens tokens
          ((TFSEnvironment.init rate).set_bpm 160)).samples,
        (-1 : ℝ) ≤ s ∧ s ≤ 1) ∧
    (∀ (e : TFSEnvironment) (d u : ℕ), ∀ s ∈ (e.rest d u).1, s = 0) ∧
    (∀ (e : TFSEnvironment) (g b : ℚ) (note_num : ℤ) (d u : ℕ),
      0 ≤ e.gain → e.gain ≤ 1 →
      (0 ≤ (e.set_gain g).gain ∧ (e.set_gain g).gain ≤ 1) ∧
      (0 ≤ (e.set_bpm b).gain ∧ (e.set_bpm b).gain ≤ 1) ∧
      (0 ≤ (e.note note_num d u).2.gain ∧ (e.note note_num d u).2.gain ≤ 1) ∧
      (0 ≤ (e.rest d u).2.gain ∧ (e.rest d u).2.gain ≤ 1)) := by
  refine ⟨?_, ?_, ?_⟩
  · intro tokens rate hsucc s hs
    obtain ⟨_, _, _, suffix, hsamp, _, hmem⟩ :=
      parse_inv tokens ⟨5, [], (TFSEnvironment.init rate).set_bpm 160⟩
    have hgain : ((TFSEnvironment.init rate).set_bpm 160).gain = 1 / 4 := by
      rw [set_bpm_gain]
      rfl
    rw [show parseTokens tokens ((TFSEnvironment.init rate).set_bpm 160) =
      parseAux tokens ⟨5, [], (TFSEnvironment.init rate).set_bpm 160⟩
      from rfl] at hs
    rw [hsamp] at hs
    simp only [List.nil_append] at hs
    rcases hmem s hs with h0 | hg | hg
    · rw [h0]
      norm_num
    · rw [hg, hgain]
      norm_num
    · rw [hg, hgain]
      norm_num
  · exact rest_mem
  · intro e g b note_num d u h0 h1
    refine ⟨?_, ?_, ?_, ?_⟩
    · rw [set_gain_ite e g]
      by_cases hg : g = 0
      · simp [hg]
      · simp [hg]
        exact ⟨h0, h1⟩
    · rw [set_bpm_gain]
      exact ⟨h0, h1⟩
    · rw [(note_env e note_num d u).1]
      exact ⟨h0, h1⟩
    · rw [rest_env]
      exact ⟨h0, h1⟩

end TFS

namespace TFS

/-- Witness for C9 on the empty token sequence at the pipeline
environment (which the parser accepts with an empty sample sequence). -/
theorem claim9_sample_range_witness :
    ∀ s ∈ (parseTokens [] ((TFSEnvironment.init 44100).set_bpm 160)).samples,
      (-1 : ℝ) ≤ s ∧ s ≤ 1 :=
  claim9_sample_range.1 [] 44100 (by simp [parseTokens, parseAux, PResult.ofOk])

/-- C10: for every positive tempo, divisor and duration, one `note()` or
`rest()` call returns a sample list whose length is the same non-negative
multiple of 4 (the truncated count is scaled by 4 afterwards), and the
parser's total output length therefore only ever grows by multiples of
4. -/
theorem claim10_multiple_of_four :
    (∀ (e : TFSEnvironment) (note_num : ℤ) (d u : ℕ),
      0 < e.bpm → 0 < d → 0 < u →
        ∃ k : ℕ, (e.note note_num d u).1.length = 4 * k ∧
          (e.rest d u).1.length = 4 * k) ∧
    (∀ (tokens : List SToken) (st : PState),
      4 ∣ st.samples.length → 4 ∣ (parseAux tokens st).samples.length) := by
  constructor
  · intro e note_num d u hb hd hu
    obtain ⟨k, hk⟩ := getNumSamples_dvd e.sample_rate e.bpm d u
    exact ⟨k, by rw [note_length, hk], by rw [rest_length, hk]⟩
  · intro tokens st hst
    obtain ⟨_, _, _, suffix, hs, hdvd, _⟩ := parse_inv tokens st
    rw [hs, List.length_append]
    exact Nat.dvd_add hst hdvd

/-- Witness for C10 at the default environment with divisor 4 and
duration 1, and at the empty token sequence. -/
theorem claim10_multiple_of_four_witness :
    (∃ k : ℕ, ((TFSEnvironment.init 44100).note 69 4 1).1.length = 4 * k ∧
      ((TFSEnvironment.init 44100).rest 4 1).1.length = 4 * k) ∧
    4 ∣ (parseAux [] ⟨5, [], TFSEnvironment.init 44100⟩).samples.length :=
  ⟨claim10_multiple_of_four.1 (TFSEnvironment.init 44100) 69 4 1
      (by norm_num [TFSEnvironment.init]) (by norm_num) (by norm_num),
    claim10_multiple_of_four.2 [] ⟨5, [], TFSEnvironment.init 44100⟩
      (by simp)⟩

end TFS
